import Mathlib

/-!
# Verification of the IVS_Calculator numeric core

Shallow embedding of the numeric primitives library
(`src/src/mathlibrary.cpp`, class `Calculator`) and of the expression
evaluator (`calculate` in `src/main_gui.cpp`) of the IVS_Calculator
repository, together with proofs about the embedded definitions.

Modelling conventions:
* C++ `double` values are embedded as `ℚ` with exact arithmetic; the
  C/C++ decimal literals (`1e-12`, `1e308`, the `pi`/`e` constants)
  are taken at their exact decimal value.
* C++ integer types (`long long`, `int`) are embedded as `ℤ`
  (no wrap-around is modelled).
* A thrown C++ exception is an `Except.error` carrying the error kind;
  an out-of-bounds container access (undefined behaviour in C++) is
  the distinguished error kind `Err.OutOfBounds`.
* Raw floating point division `a / p` inside the Newton loop of `root`
  does not throw in C++; it is embedded as total division on `ℚ`.
* The C++ `for` loops are embedded as structural recursion on an
  explicit iteration budget that is always at least the number of
  iterations the C++ loop performs.
-/

namespace IVS

/-- The error kinds raised by the numeric core: `DivideByZero`,
`InvalidArgument` and `Overflow` correspond to the C++ exceptions
`std::runtime_error`, `std::invalid_argument` and `std::overflow_error`
thrown by the primitives; `ParseError` corresponds to the exception
thrown by `std::stod` on a malformed numeric token; `OutOfBounds`
marks an out-of-bounds container access (undefined behaviour in C++). -/
inductive Err where
  | DivideByZero
  | InvalidArgument
  | Overflow
  | ParseError
  | OutOfBounds
  deriving DecidableEq, Repr

/-- Result of a fallible numeric operation. -/
abbrev Res := Except Err ℚ

instance {ε α : Type} [DecidableEq ε] [DecidableEq α] : DecidableEq (Except ε α) :=
  fun x y =>
    match x, y with
    | .error a, .error b => decidable_of_iff (a = b) (by simp)
    | .error _, .ok _ => isFalse (by simp)
    | .ok _, .error _ => isFalse (by simp)
    | .ok a, .ok b => decidable_of_iff (a = b) (by simp)

/-- The tolerance `1e-12` used by `Calculator::isInteger`. -/
def intEps : ℚ := 1 / 10 ^ 12

/-- The literal `1e308` used as the overflow guard in `Calculator::fact`. -/
def overflowCap : ℚ := 10 ^ 308

/-- The largest finite IEEE-754 double, `1.7976931348623157e308`,
as an exact rational. -/
def maxFiniteDouble : ℚ := 17976931348623157 / 10 ^ 16 * 10 ^ 308

/-- `static_cast<long long>(a)` / `static_cast<int>(a)` on a double:
truncation toward zero. -/
def truncQ (a : ℚ) : ℤ := if 0 ≤ a then ⌊a⌋ else ⌈a⌉

namespace Calculator

/-- `static constexpr double pi = 3.1415926536;` -/
def pi : ℚ := 31415926536 / 10 ^ 10

/-- `static constexpr double e = 2.7182818285;` -/
def e : ℚ := 27182818285 / 10 ^ 10

/-- `Calculator::add`. -/
def add (a b : ℚ) : Res := .ok (a + b)

/-- `Calculator::sub`. -/
def sub (a b : ℚ) : Res := .ok (a - b)

/-- `Calculator::mul`. -/
def mul (a b : ℚ) : Res := .ok (a * b)

/-- `Calculator::div`: throws `DivideByZero` when `b == 0`,
otherwise returns `a / b`. -/
def div (a b : ℚ) : Res :=
  if b = 0 then .error .DivideByZero else .ok (a / b)

/-- `Calculator::isInteger`: truncates `a` toward zero and accepts
when the (signed) difference lies strictly within `1e-12`. -/
def isInteger (a : ℚ) : Bool :=
  let diff : ℚ := a - (truncQ a : ℚ)
  decide (diff < intEps) && decide (-intEps < diff)

end Calculator

/-- The accumulation loop of `Calculator::fact`:
`for(double i = 2.0; i <= a; i += 1.0) { result *= i; if (result > 1e308) throw ...; }`.
The first argument is an iteration budget that is always chosen at
least as large as the number of iterations of the C++ loop. -/
def factLoop (a : ℚ) : ℕ → ℚ → ℚ → Res
  | 0, _, acc => .ok acc
  | fuel + 1, i, acc =>
    if i ≤ a then
      let r := acc * i
      if overflowCap < r then .error .Overflow
      else factLoop a fuel (i + 1) r
    else .ok acc

namespace Calculator

/-- `Calculator::fact`. -/
def fact (a : ℚ) : Res :=
  if a < 0 then .error .InvalidArgument
  else if isInteger a = false then .error .InvalidArgument
  else if a = 0 ∨ a = 1 then .ok 1
  else factLoop a ((truncQ a).toNat + 1) 2 1

end Calculator

/-- The multiplication loop of `Calculator::power`:
`for(int i = 1; i <= b; i++) result *= a;`.
The first `ℕ` argument is an iteration budget chosen at least as large
as the number of iterations of the C++ loop. -/
def powerLoop (a b : ℚ) : ℕ → ℕ → ℚ → ℚ
  | 0, _, acc => acc
  | fuel + 1, i, acc =>
    if (i : ℚ) ≤ b then powerLoop a b fuel (i + 1) (acc * a) else acc

namespace Calculator

/-- `Calculator::power`. -/
def power (a b : ℚ) : Res :=
  if b = 0 then .ok 1
  else if isInteger b = false ∨ b < 0 then .error .InvalidArgument
  else .ok (powerLoop a b ((truncQ b).toNat + 1) 1 1)

end Calculator

/-- The convergence tolerance `1e-10` of the Newton–Raphson loop in
`Calculator::root`. -/
def rootEps : ℚ := 1 / 10 ^ 10

/-- The Newton–Raphson loop of `Calculator::root`: at most `fuel`
iterations (the C++ code passes `1000`), stopping early as soon as two
successive iterates differ by less than `1e-10`.  Returns the final
iterate together with the number of iterations executed.  The call to
`Calculator::power` inside the body can throw, which propagates. -/
def rootIter (a b : ℚ) : ℚ → ℕ → Except Err (ℚ × ℕ)
  | x, 0 => .ok (x, 0)
  | x, fuel + 1 =>
    match Calculator.power x (b - 1) with
    | .error er => .error er
    | .ok p =>
      let x2 := ((b - 1) * x + a / p) / b
      if -rootEps < x - x2 ∧ x - x2 < rootEps then .ok (x2, 1)
      else
        match rootIter a b x2 fuel with
        | .error er => .error er
        | .ok (y, n) => .ok (y, n + 1)

namespace Calculator

/-- `Calculator::root`. -/
def root (a b : ℚ) : Res :=
  if isInteger b = false ∨ b ≤ 0 then .error .InvalidArgument
  else if a < 0 ∧ truncQ b % 2 = 0 then .error .InvalidArgument
  else
    match rootIter a b (a / 2) 1000 with
    | .error er => .error er
    | .ok (x, _) => .ok x

/-- `Calculator::modulo`: truncating `int` remainder, normalized into
the non-negative range by adding `|b|` when negative. -/
def modulo (a b : ℚ) : Res :=
  if b = 0 then .error .DivideByZero
  else if isInteger a = false ∨ isInteger b = false then .error .InvalidArgument
  else
    let r : ℤ := Int.tmod (truncQ a) (truncQ b)
    let r2 : ℤ := if r < 0 then r + ((truncQ b).natAbs : ℤ) else r
    .ok (r2 : ℚ)

end Calculator

/-! ## The expression evaluator (`calculate` in `src/main_gui.cpp`) -/

/-- The operator characters of `isOp`: `"+-*/%^r!"`. -/
def opChars : List Char := ['+', '-', '*', '/', '%', '^', 'r', '!']

/-- `isOp` from `main_gui.cpp`. -/
def isOp (c : Char) : Bool := opChars.contains c

/-- `std::string::contains(char)` on a character list. -/
def hasChar (c : Char) : List Char → Bool
  | [] => false
  | d :: ds => d = c || hasChar c ds

/-- Whether `pat` occurs at the start of `s`. -/
def headMatches : List Char → List Char → Bool
  | [], _ => true
  | _ :: _, [] => false
  | p :: ps, c :: cs => c = p && headMatches ps cs

/-- `std::string::contains(substring)` on a character list. -/
def hasSubstr (pat : List Char) : List Char → Bool
  | [] => pat.isEmpty
  | c :: cs => headMatches pat (c :: cs) || hasSubstr pat cs

/-- `std::string::find(c, 0)`: index of the first occurrence of `c`. -/
def findFirst (c : Char) : List Char → Option ℕ
  | [] => none
  | d :: ds => if d = c then some 0 else (findFirst c ds).map (· + 1)

/-- `std::string::find_last_of(c)`: index of the last occurrence of `c`. -/
def findLast (c : Char) (ops : List Char) : Option ℕ :=
  match findFirst c ops.reverse with
  | some j => some (ops.length - 1 - j)
  | none => none

/-- Digit test used by the `std::stod` model. -/
def isDigitCh (c : Char) : Bool := '0' ≤ c && c ≤ '9'

/-- Split a leading run of decimal digits off a character list. -/
def takeDigits : List Char → List Char × List Char
  | [] => ([], [])
  | c :: cs =>
    if isDigitCh c then
      let (ds, rest) := takeDigits cs
      (c :: ds, rest)
    else ([], c :: cs)

/-- Value of a digit string. -/
def digitsVal (ds : List Char) : ℕ :=
  ds.foldl (fun acc c => acc * 10 + (c.toNat - 48)) 0

/-- Model of `std::stod` on the token fragments this evaluator produces:
an optional leading `'-'`, then decimal digits with at most one decimal
point; at least one digit is required, and trailing characters after the
longest numeric prefix are ignored (as `stod` does).  Exponent, hex,
infinity/NaN and leading-whitespace forms of `stod` are outside the
modelled fragment.  `none` models the `std::invalid_argument` thrown by
`stod` when no conversion can be performed. -/
def parseNumCore (cs : List Char) : Option ℚ :=
  let (ds, rest) := takeDigits cs
  match rest with
  | '.' :: rest2 =>
    let (fs, _) := takeDigits rest2
    if ds.isEmpty && fs.isEmpty then none
    else some ((digitsVal ds : ℚ) + (digitsVal fs : ℚ) / 10 ^ fs.length)
  | _ => if ds.isEmpty then none else some (digitsVal ds : ℚ)

/-- `std::stod` model including an optional leading minus sign. -/
def parseNum (cs : List Char) : Option ℚ :=
  match cs with
  | '-' :: rest => (parseNumCore rest).map (fun v => -v)
  | _ => parseNumCore cs

/-- The operand push performed at an operator boundary of the scan:
a segment containing `"pi"` becomes `±π`, otherwise a segment
containing `'e'` becomes `±e`, otherwise the segment is parsed
with `stod`. -/
def substNum (seg : List Char) : Except Err ℚ :=
  if hasSubstr ['p', 'i'] seg then
    .ok (if hasChar '-' seg then -Calculator.pi else Calculator.pi)
  else if hasChar 'e' seg then
    .ok (if hasChar '-' seg then -Calculator.e else Calculator.e)
  else
    match parseNum seg with
    | some v => .ok v
    | none => .error .ParseError

/-- The code after the scan loop: push the trailing segment (parsed
with raw `stod`, without constant substitution) when non-empty. -/
def tokEnd (expr : List Char) (ns : ℕ) (nums : List ℚ) (ops : List Char) :
    Except Err (List ℚ × List Char) :=
  if ns < expr.length then
    match parseNum (expr.drop ns) with
    | some v => .ok (nums ++ [v], ops)
    | none => .error .ParseError
  else .ok (nums, ops)

/-- The scan loop of `calculate`, position `i`, pending-segment start
`num_start = ns`, accumulated operand and operator sequences.  `gas` is
`expr.length - i`, so the recursion is structural.  Reading `expr[i-1]`
when `i == 0` (an out-of-bounds access, undefined behaviour in C++)
yields `Err.OutOfBounds`. -/
def tokAux (expr : List Char) : ℕ → ℕ → ℕ → List ℚ → List Char →
    Except Err (List ℚ × List Char)
  | 0, _, ns, nums, ops => tokEnd expr ns nums ops
  | gas + 1, i, ns, nums, ops =>
    match expr[i]? with
    | none => tokEnd expr ns nums ops
    | some c =>
      if isOp c then
        if i = 0 then .error .OutOfBounds
        else
          match expr[i - 1]? with
          | none => .error .OutOfBounds
          | some p =>
            if c = '-' ∧ isOp p = true ∧ p ≠ '!' then
              tokAux expr gas (i + 1) ns nums ops
            else if p = '!' then
              tokAux expr gas (i + 1) (i + 1) nums (ops ++ [c])
            else
              match substNum ((expr.drop ns).take (i - ns)) with
              | .ok v => tokAux expr gas (i + 1) (i + 1) (nums ++ [v]) (ops ++ [c])
              | .error er => .error er
      else tokAux expr gas (i + 1) ns nums ops

/-- Tokenization: the scan loop started at position 0. -/
def tokenize (expr : List Char) : Except Err (List ℚ × List Char) :=
  tokAux expr expr.length 0 0 [] []

/-- `nums[j]` with the out-of-bounds access (undefined behaviour in
C++) modelled as `Err.OutOfBounds`. -/
def getNum (nums : List ℚ) (j : ℕ) : Except Err ℚ :=
  match nums[j]? with
  | some v => .ok v
  | none => .error .OutOfBounds

/-- The shared shape of the seven binary-operator branches of the
reduction loop: read `nums[j]` and `nums[j+1]`, apply `f` to them,
write the result back into position `j`, erase position `j+1` and the
operator at `j`. -/
def binApply (f : ℚ → ℚ → Res) (nums : List ℚ) (ops : List Char) (j : ℕ) :
    Except Err (List ℚ × List Char) :=
  match getNum nums j with
  | .error er => .error er
  | .ok l =>
    match getNum nums (j + 1) with
    | .error er => .error er
    | .ok r =>
      match f l r with
      | .error er => .error er
      | .ok v => .ok ((nums.set j v).eraseIdx (j + 1), ops.eraseIdx j)

/-- One iteration of the `while(!ops.empty())` reduction loop: the
`if`/`else if` chain over the operator classes in priority order
`!`, `r`, `^`, `%`, `/`, `*`, `-`, `+`.  The `'!'` branch locates the
first occurrence (`ops.find('!', 0)`) and consumes no right operand;
every other branch locates the last occurrence (`ops.find_last_of`).
The `'r'` branch calls `Calculator::root(op_right, op_left)` — the
right operand is the radicand and the left operand the degree.  An
operator sequence containing none of the eight operator characters
would make the C++ loop spin forever; the embedding returns the stuck
marker `Err.OutOfBounds` for that (unreachable) state. -/
def calcStep (nums : List ℚ) (ops : List Char) : Except Err (List ℚ × List Char) :=
  if hasChar '!' ops then
    match findFirst '!' ops with
    | some j =>
      (match getNum nums j with
       | .error er => .error er
       | .ok l =>
         match Calculator.fact l with
         | .error er => .error er
         | .ok v => .ok (nums.set j v, ops.eraseIdx j))
    | none => .error .OutOfBounds
  else if hasChar 'r' ops then
    match findLast 'r' ops with
    | some j => binApply (fun l r => Calculator.root r l) nums ops j
    | none => .error .OutOfBounds
  else if hasChar '^' ops then
    match findLast '^' ops with
    | some j => binApply Calculator.power nums ops j
    | none => .error .OutOfBounds
  else if hasChar '%' ops then
    match findLast '%' ops with
    | some j => binApply Calculator.modulo nums ops j
    | none => .error .OutOfBounds
  else if hasChar '/' ops then
    match findLast '/' ops with
    | some j => binApply Calculator.div nums ops j
    | none => .error .OutOfBounds
  else if hasChar '*' ops then
    match findLast '*' ops with
    | some j => binApply Calculator.mul nums ops j
    | none => .error .OutOfBounds
  else if hasChar '-' ops then
    match findLast '-' ops with
    | some j => binApply Calculator.sub nums ops j
    | none => .error .OutOfBounds
  else if hasChar '+' ops then
    match findLast '+' ops with
    | some j => binApply Calculator.add nums ops j
    | none => .error .OutOfBounds
  else .error .OutOfBounds

/-- The `while(!ops.empty())` reduction loop; each iteration of the
C++ loop removes exactly one operator, so a fuel of `ops.length`
suffices.  When the loop exits, `nums[0]` is returned. -/
def calcReduce : ℕ → List ℚ → List Char → Res
  | 0, nums, ops => if ops.isEmpty then getNum nums 0 else .error .OutOfBounds
  | fuel + 1, nums, ops =>
    if ops.isEmpty then getNum nums 0
    else
      match calcStep nums ops with
      | .error er => .error er
      | .ok (nums', ops') => calcReduce fuel nums' ops'

/-- The full evaluator `calculate`: tokenize, then reduce. -/
def calculate (expr : List Char) : Res :=
  match tokenize expr with
  | .error er => .error er
  | .ok (nums, ops) => calcReduce ops.length nums ops

/-- `calculate` on a string literal. -/
def calculateStr (s : String) : Res := calculate s.data

/-- Modelled from the spec: the spec's reduction rule for the unary
operator `!` — "locate its last (rightmost) occurrence" — in place of
the first-occurrence lookup the code performs.  Used only to compare
the specified rule against the embedded code. -/
def bangStepRightmost (nums : List ℚ) (ops : List Char) :
    Except Err (List ℚ × List Char) :=
  match findLast '!' ops with
  | some j =>
    (match getNum nums j with
     | .error er => .error er
     | .ok l =>
       match Calculator.fact l with
       | .error er => .error er
       | .ok v => .ok (nums.set j v, ops.eraseIdx j))
  | none => .error .OutOfBounds

/-- The number of binary operators (everything except `'!'`) in an
operator sequence. -/
def binCount (ops : List Char) : ℕ :=
  (ops.filter (fun c => !(c == '!'))).length

/-- The well-formed-input precondition of claim C10: the expression is
non-empty, does not begin with an operator character, and does not end
with a binary operator (a trailing `'!'` is allowed). -/
def Pre (expr : List Char) : Bool :=
  match expr with
  | [] => false
  | c :: _ =>
    !(isOp c) &&
      (match expr.getLast? with
       | some l => !(isOp l && !(l == '!'))
       | none => false)

/-! ## Basic facts about truncation and the integer gate -/

lemma truncQ_of_nonneg {a : ℚ} (h : 0 ≤ a) : truncQ a = ⌊a⌋ := if_pos h

lemma truncQ_of_neg {a : ℚ} (h : ¬ 0 ≤ a) : truncQ a = ⌈a⌉ := if_neg h

lemma isInteger_iff {a : ℚ} :
    Calculator.isInteger a = true ↔
      a - (truncQ a : ℚ) < intEps ∧ -intEps < a - (truncQ a : ℚ) := by
  unfold Calculator.isInteger
  simp [Bool.and_eq_true, decide_eq_true_eq]

lemma intEps_pos : (0 : ℚ) < intEps := by norm_num [intEps]

lemma intEps_le_one : intEps ≤ 1 := by norm_num [intEps]

/-! ## Claim C4 — `isInteger` -/

/-- C4, counterexample: `isInteger` is not "true iff `a` lies within
`1e-12` of the nearest integer".  The value `6 - 1e-13` lies within
`1e-13` of the integer `6`, yet `isInteger` truncates toward zero
(giving `5`), sees a difference close to `1`, and returns `false`. -/
theorem c4_counterexample :
    Calculator.isInteger (6 - 1 / 10 ^ 13) = false ∧
    |(6 - 1 / 10 ^ 13 : ℚ) - ((6 : ℤ) : ℚ)| < intEps := by
  constructor
  · norm_num [Calculator.isInteger, truncQ, intEps]
  · rw [abs_sub_comm]
    rw [show ((6 : ℤ) : ℚ) - (6 - 1 / 10 ^ 13) = 1 / 10 ^ 13 by norm_num]
    rw [abs_of_pos (by norm_num)]
    norm_num [intEps]

/-- C4, amended: `isInteger a` is true iff the difference between `a`
and its truncation toward zero lies strictly within `1e-12`; for
`a ≥ 0` this accepts exactly the values lying in `[n, n + 1e-12)` for
a non-negative integer `n` (slightly *above* or at an integer), and
for `a ≤ 0` exactly the values in `(n - 1e-12, n]` for a non-positive
integer `n`; values slightly below a positive integer (or slightly
above a negative one) are rejected.  `isInteger(1e12)` is true and
`isInteger(1e12 + 0.0001)` is false as claimed. -/
theorem c4_amended :
    (∀ a : ℚ, 0 ≤ a →
      (Calculator.isInteger a = true ↔
        ∃ n : ℤ, 0 ≤ n ∧ (n : ℚ) ≤ a ∧ a < (n : ℚ) + intEps)) ∧
    (∀ a : ℚ, a ≤ 0 →
      (Calculator.isInteger a = true ↔
        ∃ n : ℤ, n ≤ 0 ∧ a ≤ (n : ℚ) ∧ (n : ℚ) - intEps < a)) ∧
    Calculator.isInteger (10 ^ 12) = true ∧
    Calculator.isInteger (10 ^ 12 + 1 / 10 ^ 4) = false := by
  refine ⟨?_, ?_, by norm_num [Calculator.isInteger, truncQ, intEps],
    by norm_num [Calculator.isInteger, truncQ, intEps]⟩
  · intro a ha
    rw [isInteger_iff, truncQ_of_nonneg ha]
    constructor
    · rintro ⟨h1, _⟩
      exact ⟨⌊a⌋, Int.floor_nonneg.mpr ha, Int.floor_le a, by linarith⟩
    · rintro ⟨n, _, hle, hlt⟩
      have hfl : ⌊a⌋ = n := by
        rw [Int.floor_eq_iff]
        exact ⟨hle, lt_of_lt_of_le hlt (by linarith [intEps_le_one])⟩
      rw [hfl]
      constructor
      · linarith
      · have := intEps_pos
        linarith
  · intro a ha
    rcases eq_or_lt_of_le ha with heq | hlt
    · subst heq
      constructor
      · intro _
        exact ⟨0, le_refl 0, by norm_num, by simpa using neg_lt_zero.mpr intEps_pos⟩
      · intro _
        norm_num [Calculator.isInteger, truncQ, intEps]
    · rw [isInteger_iff, truncQ_of_neg (not_le.mpr hlt)]
      constructor
      · rintro ⟨_, h2⟩
        refine ⟨⌈a⌉, Int.ceil_le.mpr (le_of_lt hlt), Int.le_ceil a, by linarith⟩
      · rintro ⟨n, _, hle, hgt⟩
        have hcl : ⌈a⌉ = n := by
          rw [Int.ceil_eq_iff]
          exact ⟨lt_of_le_of_lt (by linarith [intEps_le_one]) hgt, hle⟩
        rw [hcl]
        constructor
        · have := intEps_pos
          linarith
        · linarith

/-- C4, witness: the amended characterization applied at `a = 3`. -/
theorem c4_witness :
    (0 : ℚ) ≤ 3 ∧
      (Calculator.isInteger 3 = true ↔
        ∃ n : ℤ, 0 ≤ n ∧ (n : ℚ) ≤ 3 ∧ (3 : ℚ) < (n : ℚ) + intEps) :=
  ⟨by norm_num, c4_amended.1 3 (by norm_num)⟩

/-! ## Claim C5 — `power` -/

lemma powerLoop_closed (a b : ℚ) :
    ∀ (fuel i : ℕ) (acc : ℚ), (⌊b⌋ + 1 - (i : ℤ)).toNat ≤ fuel →
      powerLoop a b fuel i acc = acc * a ^ (⌊b⌋ + 1 - (i : ℤ)).toNat := by
  intro fuel
  induction fuel with
  | zero =>
    intro i acc h
    have h0 : (⌊b⌋ + 1 - (i : ℤ)).toNat = 0 := Nat.le_zero.mp h
    rw [powerLoop, h0, pow_zero, mul_one]
  | succ fuel ih =>
    intro i acc h
    rw [powerLoop]
    by_cases hib : (i : ℚ) ≤ b
    · have hfl : (i : ℤ) ≤ ⌊b⌋ := Int.le_floor.mpr (by exact_mod_cast hib)
      rw [if_pos hib, ih (i + 1) (acc * a) (by omega)]
      have hsucc : (⌊b⌋ + 1 - (i : ℤ)).toNat = (⌊b⌋ + 1 - ((i : ℕ) + 1 : ℤ)).toNat + 1 := by
        omega
      rw [show (((i + 1 : ℕ)) : ℤ) = ((i : ℕ) + 1 : ℤ) by push_cast; ring, hsucc,
        pow_succ]
      ring
    · have hfl : ⌊b⌋ < (i : ℤ) := by
        rw [Int.floor_lt]
        exact_mod_cast lt_of_not_le hib
      rw [if_neg hib, show (⌊b⌋ + 1 - (i : ℤ)).toNat = 0 by omega, pow_zero, mul_one]

lemma power_ok (a b : ℚ) (hint : Calculator.isInteger b = true) (hb : 0 ≤ b) :
    Calculator.power a b = .ok (a ^ (truncQ b).toNat) := by
  unfold Calculator.power
  by_cases hb0 : b = 0
  · subst hb0
    rw [if_pos rfl]
    norm_num [truncQ]
  · rw [if_neg hb0, if_neg (by simp [hint, not_lt.mpr hb])]
    have hfl0 : 0 ≤ ⌊b⌋ := Int.floor_nonneg.mpr hb
    rw [powerLoop_closed a b ((truncQ b).toNat + 1) 1 1
        (by rw [truncQ_of_nonneg hb]; omega)]
    rw [truncQ_of_nonneg hb, one_mul,
      show (⌊b⌋ + 1 - ((1 : ℕ) : ℤ)).toNat = ⌊b⌋.toNat by omega]

/-- C5: `power(a,b)` returns `a^b` by repeated multiplication for every
finite `a` and every effectively-integer `b ≥ 0` (with `power(a,0) = 1`
for every `a`, including `0^0 = 1`), and raises `InvalidArgument`
exactly when `b` is not effectively-integer or `b < 0`; in particular
`power(5,2) = 25` and `power(2,-3)` and `power(5,2.4)` fail with
`InvalidArgument`. -/
theorem c5_theorem :
    (∀ a b : ℚ, Calculator.isInteger b = true → 0 ≤ b →
      Calculator.power a b = .ok (a ^ (truncQ b).toNat)) ∧
    (∀ a b : ℚ, Calculator.power a b = .error .InvalidArgument ↔
      (Calculator.isInteger b = false ∨ b < 0)) ∧
    (∀ a : ℚ, Calculator.power a 0 = .ok 1) ∧
    Calculator.power 5 2 = .ok 25 ∧
    Calculator.power 2 (-3) = .error .InvalidArgument ∧
    Calculator.power 5 (12 / 5) = .error .InvalidArgument := by
  have hpow : ∀ a b : ℚ, Calculator.isInteger b = true → 0 ≤ b →
      Calculator.power a b = .ok (a ^ (truncQ b).toNat) :=
    fun a b hint hb => power_ok a b hint hb
  refine ⟨hpow, ?_, ?_, ?_, ?_, ?_⟩
  · intro a b
    unfold Calculator.power
    by_cases hb0 : b = 0
    · subst hb0
      rw [if_pos rfl]
      constructor
      · intro h
        exact absurd h (by simp)
      · rintro (h | h)
        · rw [show Calculator.isInteger 0 = true by
            norm_num [Calculator.isInteger, truncQ, intEps]] at h
          exact absurd h (by simp)
        · exact absurd h (by norm_num)
    · rw [if_neg hb0]
      by_cases hg : Calculator.isInteger b = false ∨ b < 0
      · rw [if_pos hg]
        simp [hg]
      · rw [if_neg hg]
        simp [hg]
  · intro a
    unfold Calculator.power
    rw [if_pos rfl]
  · have h := hpow 5 2 (by norm_num [Calculator.isInteger, truncQ, intEps]) (by norm_num)
    rw [h, show truncQ 2 = 2 by norm_num [truncQ], show ((2 : ℤ)).toNat = 2 from rfl]
    norm_num
  · unfold Calculator.power
    rw [if_neg (by norm_num), if_pos (Or.inr (by norm_num))]
  · unfold Calculator.power
    rw [if_neg (by norm_num),
      if_pos (Or.inl (by norm_num [Calculator.isInteger, truncQ, intEps]))]

/-- C5, witness: the closed form applied at `power(5, 2)`. -/
theorem c5_witness :
    (Calculator.isInteger 2 = true ∧ (0 : ℚ) ≤ 2) ∧
      Calculator.power 5 2 = .ok (5 ^ (truncQ 2).toNat) :=
  ⟨⟨by norm_num [Calculator.isInteger, truncQ, intEps], by norm_num⟩,
    c5_theorem.1 5 2 (by norm_num [Calculator.isInteger, truncQ, intEps]) (by norm_num)⟩

/-! ## Claim C6 — `modulo` -/

lemma neg_tmodQ (a b : ℤ) : (-a).tmod b = -(a.tmod b) := by
  rw [Int.tmod_def, Int.tmod_def, Int.neg_tdiv]
  ring

lemma tmod_abs_bounds (a b : ℤ) (hb : b ≠ 0) :
    -|b| < a.tmod b ∧ a.tmod b < |b| := by
  have habs : 0 < |b| := abs_pos.mpr hb
  have upper : ∀ x : ℤ, 0 ≤ x → x.tmod b < |b| := by
    intro x hx
    rcases lt_or_gt_of_ne hb with h | h
    · calc x.tmod b = x.tmod (-b) := (Int.tmod_neg x b).symm
      _ < -b := Int.tmod_lt_of_pos x (by omega)
      _ ≤ |b| := by rw [abs_of_neg h]
    · calc x.tmod b < b := Int.tmod_lt_of_pos x h
      _ ≤ |b| := le_abs_self b
  rcases le_or_lt 0 a with ha | ha
  · exact ⟨lt_of_lt_of_le (by omega) (Int.tmod_nonneg b ha), upper a ha⟩
  · have h1 : a.tmod b = -((-a).tmod b) := by
      rw [neg_tmodQ]
      ring
    have h2 : (-a).tmod b < |b| := upper (-a) (by omega)
    have h3 : 0 ≤ (-a).tmod b := Int.tmod_nonneg b (by omega)
    constructor
    · omega
    · omega

lemma truncQ_intCast (n : ℤ) : truncQ (n : ℚ) = n := by
  unfold truncQ
  split
  · exact Int.floor_intCast n
  · exact Int.ceil_intCast n

lemma isInteger_intCast (n : ℤ) : Calculator.isInteger (n : ℚ) = true := by
  rw [isInteger_iff, truncQ_intCast, sub_self]
  constructor <;> norm_num [intEps]

/-- C6, counterexample: `b = 1e-13` is effectively-integer and nonzero,
so the claim requires `modulo(10, 1e-13)` to return a remainder in
`[0, |b|)`; but the code truncates `b` to the `int` `0` and computes
`10 % 0` — an integer division by zero (undefined behaviour in C++,
modelled as the unreduced remainder `10`), which lies far outside the
claimed range and raises neither `DivideByZero` nor `InvalidArgument`. -/
theorem c6_counterexample :
    (1 / 10 ^ 13 : ℚ) ≠ 0 ∧
    Calculator.isInteger (1 / 10 ^ 13) = true ∧
    Calculator.modulo 10 (1 / 10 ^ 13) = .ok 10 ∧
    ¬ ((10 : ℚ) < |(1 / 10 ^ 13 : ℚ)|) := by
  refine ⟨by norm_num, by norm_num [Calculator.isInteger, truncQ, intEps], ?_, ?_⟩
  · unfold Calculator.modulo
    rw [if_neg (by norm_num),
      if_neg (by norm_num [Calculator.isInteger, truncQ, intEps])]
    rw [show truncQ 10 = 10 by norm_num [truncQ],
      show truncQ (1 / 10 ^ 13) = 0 by
        rw [truncQ_of_nonneg (by norm_num)]
        rw [Int.floor_eq_zero_iff]
        constructor <;> norm_num]
    rw [show Int.tmod 10 0 = 10 from rfl]
    norm_num
  · rw [abs_of_pos (by norm_num)]
    norm_num

/-- C6, amended: `modulo(a,b)` raises `DivideByZero` exactly when
`b == 0` and `InvalidArgument` exactly when (for `b ≠ 0`) `a` or `b`
is not effectively-integer; when moreover the truncation of `b` is a
nonzero integer, it returns the Euclidean-style remainder of the
truncations, normalized into `[0, |trunc b|)` (so `modulo(10,3) = 1`
and `modulo(-10,3) = 2`).  For the remaining divisors
`0 < |b| < 1e-12` the C++ code performs `% 0` on `int`s — undefined
behaviour, excluded here. -/
theorem c6_amended :
    (∀ a b : ℚ, Calculator.modulo a b = .error .DivideByZero ↔ b = 0) ∧
    (∀ a b : ℚ, b ≠ 0 →
      (Calculator.modulo a b = .error .InvalidArgument ↔
        (Calculator.isInteger a = false ∨ Calculator.isInteger b = false))) ∧
    (∀ a b : ℚ, b ≠ 0 → Calculator.isInteger a = true →
      Calculator.isInteger b = true → truncQ b ≠ 0 →
      ∃ r q : ℤ, Calculator.modulo a b = .ok (r : ℚ) ∧ 0 ≤ r ∧
        r < |truncQ b| ∧ truncQ a = truncQ b * q + r) ∧
    Calculator.modulo 10 3 = .ok 1 ∧
    Calculator.modulo (-10) 3 = .ok 2 ∧
    Calculator.modulo 10 0 = .error .DivideByZero ∧
    Calculator.modulo (21 / 2) 3 = .error .InvalidArgument := by
  refine ⟨?_, ?_, ?_, ?_, ?_, ?_, ?_⟩
  · intro a b
    unfold Calculator.modulo
    by_cases hb : b = 0
    · simp [hb]
    · rw [if_neg hb]
      by_cases hg : Calculator.isInteger a = false ∨ Calculator.isInteger b = false
      · simp [hg, hb]
      · simp [hg, hb]
  · intro a b hb
    unfold Calculator.modulo
    rw [if_neg hb]
    by_cases hg : Calculator.isInteger a = false ∨ Calculator.isInteger b = false
    · simp [hg]
    · simp [hg]
  · intro a b hb hia hib htb
    unfold Calculator.modulo
    rw [if_neg hb, if_neg (by simp [hia, hib])]
    set ta := truncQ a with hta
    set tb := truncQ b with htbdef
    have hbounds := tmod_abs_bounds ta tb htb
    have hsum : ta.tmod tb + tb * ta.tdiv tb = ta := Int.tmod_add_tdiv ta tb
    have habs : ((tb.natAbs : ℤ)) = |tb| := (Int.abs_eq_natAbs tb).symm
    by_cases hneg : ta.tmod tb < 0
    · rcases lt_or_gt_of_ne htb with hlt | hgt
      · refine ⟨ta.tmod tb + tb.natAbs, ta.tdiv tb + 1, ?_, ?_, ?_, ?_⟩
        · simp only [if_pos hneg]
        · omega
        · rw [habs] at *
          omega
        · rw [habs] at *
          have h4 : |tb| = -tb := abs_of_neg hlt
          have h5 : tb * (ta.tdiv tb + 1) = tb * ta.tdiv tb + tb := by ring
          omega
      · refine ⟨ta.tmod tb + tb.natAbs, ta.tdiv tb - 1, ?_, ?_, ?_, ?_⟩
        · simp only [if_pos hneg]
        · omega
        · rw [habs] at *
          omega
        · rw [habs] at *
          have h4 : |tb| = tb := abs_of_pos hgt
          have h5 : tb * (ta.tdiv tb - 1) = tb * ta.tdiv tb - tb := by ring
          omega
    · refine ⟨ta.tmod tb, ta.tdiv tb, ?_, ?_, ?_, ?_⟩
      · simp only [if_neg hneg]
      · omega
      · exact hbounds.2
      · omega
  · unfold Calculator.modulo
    rw [if_neg (by norm_num),
      if_neg (by norm_num [Calculator.isInteger, truncQ, intEps]),
      show truncQ 10 = 10 by norm_num [truncQ],
      show truncQ 3 = 3 by norm_num [truncQ],
      show Int.tmod 10 3 = 1 from rfl]
    norm_num
  · unfold Calculator.modulo
    rw [if_neg (by norm_num),
      if_neg (by
        have h1 : Calculator.isInteger (-10) = true := by
          rw [show ((-10 : ℚ)) = (((-10 : ℤ)) : ℚ) by norm_num]
          exact isInteger_intCast _
        have h2 : Calculator.isInteger 3 = true := by
          norm_num [Calculator.isInteger, truncQ, intEps]
        simp [h1, h2]),
      show truncQ (-10) = -10 by
        rw [show ((-10 : ℚ)) = (((-10 : ℤ)) : ℚ) by norm_num, truncQ_intCast],
      show truncQ 3 = 3 by norm_num [truncQ],
      show Int.tmod (-10) 3 = -1 from rfl]
    norm_num
  · unfold Calculator.modulo
    rw [if_pos rfl]
  · unfold Calculator.modulo
    rw [if_neg (by norm_num),
      if_pos (Or.inl (by norm_num [Calculator.isInteger, truncQ, intEps]))]

/-- C6, witness: the amended Euclidean characterization applied at
`modulo(-10, 3)`. -/
theorem c6_witness :
    ((3 : ℚ) ≠ 0 ∧ Calculator.isInteger (-10) = true ∧
        Calculator.isInteger 3 = true ∧ truncQ 3 ≠ 0) ∧
      ∃ r q : ℤ, Calculator.modulo (-10) 3 = .ok (r : ℚ) ∧ 0 ≤ r ∧
        r < |truncQ 3| ∧ truncQ (-10) = truncQ 3 * q + r :=
  ⟨⟨by norm_num,
      by
        rw [show ((-10 : ℚ)) = (((-10 : ℤ)) : ℚ) by norm_num]
        exact isInteger_intCast _,
      by norm_num [Calculator.isInteger, truncQ, intEps],
      by norm_num [truncQ]⟩,
    c6_amended.2.2.1 (-10) 3 (by norm_num)
      (by
        rw [show ((-10 : ℚ)) = (((-10 : ℤ)) : ℚ) by norm_num]
        exact isInteger_intCast _)
      (by norm_num [Calculator.isInteger, truncQ, intEps])
      (by norm_num [truncQ])⟩

/-! ## Claim C7 — `fact` -/

set_option exponentiation.threshold 400
set_option maxRecDepth 4000

lemma fact170_le_cap : Nat.factorial 170 ≤ 10 ^ 308 := by decide

lemma cap_lt_fact171 : 10 ^ 308 < Nat.factorial 171 := by decide

lemma maxD_lt_fact171 : 17976931348623157 * 10 ^ 292 < Nat.factorial 171 := by decide

lemma cap_lt_maxD : (10 : ℕ) ^ 308 < 17976931348623157 * 10 ^ 292 := by decide

lemma overflowCap_eq_cast : overflowCap = ((10 ^ 308 : ℕ) : ℚ) := by
  norm_num [overflowCap]

lemma maxFiniteDouble_eq_cast :
    maxFiniteDouble = ((17976931348623157 * 10 ^ 292 : ℕ) : ℚ) := by
  rw [maxFiniteDouble]
  push_cast
  rw [div_mul_eq_mul_div, div_eq_iff (by positivity)]
  norm_num

lemma factLoop_only_overflow (a : ℚ) :
    ∀ (fuel : ℕ) (i acc : ℚ) (er : Err),
      factLoop a fuel i acc = .error er → er = .Overflow := by
  intro fuel
  induction fuel with
  | zero =>
    intro i acc er h
    simp [factLoop] at h
  | succ fuel ih =>
    intro i acc er h
    rw [factLoop] at h
    by_cases hia : i ≤ a
    · rw [if_pos hia] at h
      by_cases hov : overflowCap < acc * i
      · simp only [if_pos hov] at h
        exact ((Except.error.injEq _ _).mp h).symm
      · simp only [if_neg hov] at h
        exact ih _ _ _ h
    · rw [if_neg hia] at h
      simp at h

lemma factorial_cast_mul (k : ℕ) (h : 1 ≤ k) :
    ((Nat.factorial (k - 1) : ℕ) : ℚ) * (k : ℚ) = ((Nat.factorial k : ℕ) : ℚ) := by
  have := Nat.mul_factorial_pred (Nat.lt_of_lt_of_le Nat.zero_lt_one h)
  push_cast [← this]
  ring

lemma factLoop_ok (a : ℚ) (m : ℕ) (hm : ⌊a⌋ = (m : ℤ)) (hm170 : m ≤ 170) :
    ∀ (fuel k : ℕ), 2 ≤ k → k ≤ m + 1 → m + 1 - k ≤ fuel →
      factLoop a fuel (k : ℚ) ((Nat.factorial (k - 1) : ℕ) : ℚ) =
        .ok ((Nat.factorial m : ℕ) : ℚ) := by
  intro fuel
  induction fuel with
  | zero =>
    intro k h2 hk hf
    have hkm : k = m + 1 := by omega
    subst hkm
    rw [factLoop]
    norm_num
  | succ fuel ih =>
    intro k h2 hk hf
    rw [factLoop]
    by_cases hka : (k : ℚ) ≤ a
    · have hkm : (k : ℤ) ≤ (m : ℤ) := by
        have h := Int.le_floor.mpr (show ((k : ℤ) : ℚ) ≤ a by exact_mod_cast hka)
        omega
      have hkm' : k ≤ m := by exact_mod_cast hkm
      rw [if_pos hka]
      simp only
      have hacc := factorial_cast_mul k (by omega)
      have hno : ¬ (overflowCap < ((Nat.factorial (k - 1) : ℕ) : ℚ) * (k : ℚ)) := by
        rw [hacc, overflowCap_eq_cast, not_lt, Nat.cast_le]
        calc Nat.factorial k ≤ Nat.factorial 170 :=
              Nat.factorial_le (by omega)
          _ ≤ 10 ^ 308 := fact170_le_cap
      rw [if_neg hno, hacc]
      have hstep : ((Nat.factorial k : ℕ) : ℚ) = ((Nat.factorial ((k + 1) - 1) : ℕ) : ℚ) := by
        norm_num
      rw [show (k : ℚ) + 1 = ((k + 1 : ℕ) : ℚ) by push_cast; ring, hstep]
      exact ih (k + 1) (by omega) (by omega) (by omega)
    · have hmk : (m : ℤ) < (k : ℤ) := by
        have h := Int.floor_lt.mpr (show a < ((k : ℤ) : ℚ) by exact_mod_cast lt_of_not_le hka)
        omega
      have hkm : k = m + 1 := by
        have : m < k := by exact_mod_cast hmk
        omega
      subst hkm
      rw [if_neg hka]
      norm_num

lemma factLoop_overflow (a : ℚ) (h171 : (171 : ℤ) ≤ ⌊a⌋) :
    ∀ (fuel k : ℕ), 2 ≤ k → k ≤ 171 → 172 - k ≤ fuel →
      factLoop a fuel (k : ℚ) ((Nat.factorial (k - 1) : ℕ) : ℚ) = .error .Overflow := by
  intro fuel
  induction fuel with
  | zero =>
    intro k h2 hk hf
    exact absurd hf (by omega)
  | succ fuel ih =>
    intro k h2 hk hf
    rw [factLoop]
    have hka : (k : ℚ) ≤ a := by
      have h1 : ((k : ℤ) : ℚ) ≤ (⌊a⌋ : ℚ) := by
        exact_mod_cast show (k : ℤ) ≤ ⌊a⌋ by omega
      calc (k : ℚ) = ((k : ℤ) : ℚ) := by push_cast; ring
        _ ≤ (⌊a⌋ : ℚ) := h1
        _ ≤ a := Int.floor_le a
    rw [if_pos hka]
    simp only
    have hacc := factorial_cast_mul k (by omega)
    by_cases hk171 : k = 171
    · subst hk171
      have hov : overflowCap < ((Nat.factorial (171 - 1) : ℕ) : ℚ) * ((171 : ℕ) : ℚ) := by
        rw [factorial_cast_mul 171 (by omega), overflowCap_eq_cast, Nat.cast_lt]
        exact cap_lt_fact171
      rw [if_pos hov]
    · have hno : ¬ (overflowCap < ((Nat.factorial (k - 1) : ℕ) : ℚ) * (k : ℚ)) := by
        rw [hacc, overflowCap_eq_cast, not_lt, Nat.cast_le]
        calc Nat.factorial k ≤ Nat.factorial 170 :=
              Nat.factorial_le (by omega)
          _ ≤ 10 ^ 308 := fact170_le_cap
      rw [if_neg hno, hacc]
      have hstep : ((Nat.factorial k : ℕ) : ℚ) = ((Nat.factorial ((k + 1) - 1) : ℕ) : ℚ) := by
        norm_num
      rw [show (k : ℚ) + 1 = ((k + 1 : ℕ) : ℚ) by push_cast; ring, hstep]
      exact ih (k + 1) (by omega) (by omega) (by omega)

lemma fact_ok (a : ℚ) (h0 : 0 ≤ a) (hi : Calculator.isInteger a = true)
    (h170 : truncQ a ≤ 170) :
    Calculator.fact a = .ok ((Nat.factorial (truncQ a).toNat : ℕ) : ℚ) := by
  unfold Calculator.fact
  rw [if_neg (not_lt.mpr h0), if_neg (by simp [hi])]
  rw [truncQ_of_nonneg h0] at *
  have hfl0 : 0 ≤ ⌊a⌋ := Int.floor_nonneg.mpr h0
  by_cases h01 : a = 0 ∨ a = 1
  · rw [if_pos h01]
    rcases h01 with h | h <;> subst h <;> norm_num
  · rw [if_neg h01]
    set m : ℕ := ⌊a⌋.toNat with hmdef
    have hm : ⌊a⌋ = (m : ℤ) := by omega
    have hm170 : m ≤ 170 := by omega
    by_cases hm0 : m = 0
    · rw [show ⌊a⌋.toNat + 1 = 1 by omega, factLoop]
      have ha1 : a < 1 := by
        have h2 : a < (⌊a⌋ : ℚ) + 1 := Int.lt_floor_add_one a
        rw [hm, hm0] at h2
        norm_num at h2
        exact h2
      rw [if_neg (not_le.mpr (by linarith))]
      rw [hm0]
      norm_num
    · have hcall := factLoop_ok a m hm hm170 (m + 1) 2 (by omega) (by omega) (by omega)
      rw [show ⌊a⌋.toNat + 1 = m + 1 by omega,
        show (2 : ℚ) = ((2 : ℕ) : ℚ) by norm_num,
        show (1 : ℚ) = ((Nat.factorial (2 - 1) : ℕ) : ℚ) by norm_num]
      exact hcall

lemma fact_overflow (a : ℚ) (h0 : 0 ≤ a) (hi : Calculator.isInteger a = true)
    (h171 : 171 ≤ truncQ a) : Calculator.fact a = .error .Overflow := by
  unfold Calculator.fact
  rw [truncQ_of_nonneg h0] at *
  have ha1 : (171 : ℚ) ≤ a := by
    calc (171 : ℚ) = ((171 : ℤ) : ℚ) := by norm_num
      _ ≤ (⌊a⌋ : ℚ) := by exact_mod_cast h171
      _ ≤ a := Int.floor_le a
  rw [if_neg (not_lt.mpr h0), if_neg (by simp [hi]),
    if_neg (by rintro (h | h) <;> subst h <;> linarith)]
  have hcall := factLoop_overflow a h171 (⌊a⌋.toNat + 1) 2 (by omega) (by omega)
    (by omega)
  rw [show (2 : ℚ) = ((2 : ℕ) : ℚ) by norm_num,
    show (1 : ℚ) = ((Nat.factorial (2 - 1) : ℕ) : ℚ) by norm_num]
  exact hcall

/-- C7: `fact(a)` returns `a!` for every effectively-integer `a ≥ 0`
(`fact(0) = fact(1) = 1`, `fact(5) = 120`), raises `InvalidArgument`
exactly when `a < 0` or `a` is not effectively-integer, and raises
`Overflow` exactly when the running product exceeds the overflow guard
during accumulation — which happens precisely for truncated values
`≥ 171`, e.g. `fact(1000)`.  The code's guard constant `1e308` is
slightly below the maximum finite double `≈1.7977e308`, but the two
thresholds classify every reachable running product (a factorial)
identically, so checking against the maximum finite double describes
the behaviour exactly. -/
theorem c7_theorem :
    (∀ a : ℚ, Calculator.fact a = .error .InvalidArgument ↔
      (a < 0 ∨ Calculator.isInteger a = false)) ∧
    (∀ a : ℚ, Calculator.fact a = .error .Overflow ↔
      (0 ≤ a ∧ Calculator.isInteger a = true ∧ 171 ≤ truncQ a)) ∧
    (∀ a : ℚ, 0 ≤ a → Calculator.isInteger a = true → truncQ a ≤ 170 →
      Calculator.fact a = .ok ((Nat.factorial (truncQ a).toNat : ℕ) : ℚ)) ∧
    (∀ k : ℕ, overflowCap < ((Nat.factorial k : ℕ) : ℚ) ↔
      maxFiniteDouble < ((Nat.factorial k : ℕ) : ℚ)) ∧
    Calculator.fact 0 = .ok 1 ∧
    Calculator.fact 1 = .ok 1 ∧
    Calculator.fact 5 = .ok 120 ∧
    Calculator.fact (-1) = .error .InvalidArgument ∧
    Calculator.fact (11 / 2) = .error .InvalidArgument ∧
    Calculator.fact 1000 = .error .Overflow := by
  have hIA : ∀ a : ℚ, Calculator.fact a = .error .InvalidArgument ↔
      (a < 0 ∨ Calculator.isInteger a = false) := by
    intro a
    constructor
    · intro h
      by_contra hcon
      push_neg at hcon
      obtain ⟨h0', hi⟩ := hcon
      have hi' : Calculator.isInteger a = true := by
        cases hq : Calculator.isInteger a
        · exact absurd hq hi
        · rfl
      rcases le_or_lt (truncQ a) 170 with hc | hc
      · rw [fact_ok a h0' hi' hc] at h
        exact absurd h (by simp)
      · rw [fact_overflow a h0' hi' (by omega)] at h
        exact absurd h (by simp)
    · intro h
      unfold Calculator.fact
      rcases h with h | h
      · rw [if_pos h]
      · by_cases h0 : a < 0
        · rw [if_pos h0]
        · rw [if_neg h0, if_pos (by simp [h])]
  have hOV : ∀ a : ℚ, Calculator.fact a = .error .Overflow ↔
      (0 ≤ a ∧ Calculator.isInteger a = true ∧ 171 ≤ truncQ a) := by
    intro a
    constructor
    · intro h
      by_cases h0 : a < 0
      · rw [(hIA a).mpr (Or.inl h0)] at h
        exact absurd h (by simp)
      · by_cases hi : Calculator.isInteger a = true
        · refine ⟨not_lt.mp h0, hi, ?_⟩
          by_contra hc
          push_neg at hc
          rw [fact_ok a (not_lt.mp h0) hi (by omega)] at h
          exact absurd h (by simp)
        · rw [(hIA a).mpr (Or.inr (by simpa using hi))] at h
          exact absurd h (by simp)
    · rintro ⟨h0, hi, h171⟩
      exact fact_overflow a h0 hi h171
  refine ⟨hIA, hOV, fun a h0 hi h170 => fact_ok a h0 hi h170, ?_, ?_, ?_, ?_, ?_, ?_, ?_⟩
  · intro k
    rw [overflowCap_eq_cast, maxFiniteDouble_eq_cast, Nat.cast_lt, Nat.cast_lt]
    rcases le_or_lt k 170 with hk | hk
    · have hle : Nat.factorial k ≤ Nat.factorial 170 := Nat.factorial_le hk
      constructor
      · intro h
        exact absurd h (by have := fact170_le_cap; omega)
      · intro h
        exact absurd h (by have := fact170_le_cap; have := cap_lt_maxD; omega)
    · have hle : Nat.factorial 171 ≤ Nat.factorial k := Nat.factorial_le hk
      constructor
      · intro _
        have := maxD_lt_fact171
        omega
      · intro _
        have := cap_lt_fact171
        omega
  · rw [fact_ok 0 (by norm_num) (by norm_num [Calculator.isInteger, truncQ, intEps])
      (by norm_num [truncQ])]
    norm_num [truncQ]
  · rw [fact_ok 1 (by norm_num) (by norm_num [Calculator.isInteger, truncQ, intEps])
      (by norm_num [truncQ])]
    norm_num [truncQ]
  · rw [fact_ok 5 (by norm_num) (by norm_num [Calculator.isInteger, truncQ, intEps])
      (by norm_num [truncQ])]
    rw [show truncQ 5 = 5 by norm_num [truncQ], show ((5 : ℤ)).toNat = 5 from rfl]
    norm_num [Nat.factorial]
  · exact (hIA (-1)).mpr (Or.inl (by norm_num))
  · exact (hIA (11 / 2)).mpr (Or.inr (by norm_num [Calculator.isInteger, truncQ, intEps]))
  · exact (hOV 1000).mpr ⟨by norm_num,
      by norm_num [Calculator.isInteger, truncQ, intEps],
      by rw [show truncQ 1000 = 1000 by norm_num [truncQ]]; norm_num⟩

/-- C7, witness: the ok-characterization applied at `fact(5)`. -/
theorem c7_witness :
    ((0 : ℚ) ≤ 5 ∧ Calculator.isInteger 5 = true ∧ truncQ 5 ≤ 170) ∧
      Calculator.fact 5 = .ok ((Nat.factorial (truncQ 5).toNat : ℕ) : ℚ) :=
  ⟨⟨by norm_num, by norm_num [Calculator.isInteger, truncQ, intEps],
      by norm_num [truncQ]⟩,
    c7_theorem.2.2.1 5 (by norm_num)
      (by norm_num [Calculator.isInteger, truncQ, intEps]) (by norm_num [truncQ])⟩

/-! ## Claim C8 — `root` -/

lemma power_only_invalid (a b : ℚ) (er : Err)
    (h : Calculator.power a b = .error er) : er = .InvalidArgument := by
  unfold Calculator.power at h
  by_cases hb0 : b = 0
  · rw [if_pos hb0] at h
    exact absurd h (by simp)
  · rw [if_neg hb0] at h
    by_cases hg : Calculator.isInteger b = false ∨ b < 0
    · rw [if_pos hg] at h
      exact ((Except.error.injEq _ _).mp h).symm
    · rw [if_neg hg] at h
      exact absurd h (by simp)

lemma isInteger_sub_one (b : ℚ) (hi : Calculator.isInteger b = true)
    (hb : 1 ≤ truncQ b) :
    Calculator.isInteger (b - 1) = true ∧ 0 ≤ b - 1 := by
  have hb0 : 0 ≤ b := by
    by_contra hneg
    rw [truncQ_of_neg hneg] at hb
    have : ⌈b⌉ ≤ 0 := Int.ceil_le.mpr (by exact_mod_cast le_of_lt (not_le.mp hneg))
    omega
  rw [truncQ_of_nonneg hb0] at hb
  have hb1 : (1 : ℚ) ≤ b := by
    calc (1 : ℚ) = ((1 : ℤ) : ℚ) := by norm_num
      _ ≤ (⌊b⌋ : ℚ) := by exact_mod_cast hb
      _ ≤ b := Int.floor_le b
  have hfl : ⌊b - 1⌋ = ⌊b⌋ - 1 := by
    rw [show (1 : ℚ) = ((1 : ℤ) : ℚ) by norm_num, Int.floor_sub_int]
  constructor
  · rw [isInteger_iff] at hi ⊢
    rw [truncQ_of_nonneg hb0] at hi
    rw [truncQ_of_nonneg (by linarith), hfl]
    push_cast at hi ⊢
    constructor <;> linarith [hi.1, hi.2]
  · linarith

lemma rootIter_ok (a b : ℚ) (hi : Calculator.isInteger b = true)
    (hb : 1 ≤ truncQ b) :
    ∀ (fuel : ℕ) (x : ℚ), ∃ y n, rootIter a b x fuel = .ok (y, n) ∧ n ≤ fuel := by
  intro fuel
  induction fuel with
  | zero =>
    intro x
    exact ⟨x, 0, rfl, le_refl 0⟩
  | succ fuel ih =>
    intro x
    obtain ⟨hsi, hs0⟩ := isInteger_sub_one b hi hb
    have hp := power_ok x (b - 1) hsi hs0
    rw [rootIter, hp]
    by_cases hconv : -rootEps < x - ((b - 1) * x + a / (x ^ (truncQ (b - 1)).toNat)) / b ∧
        x - ((b - 1) * x + a / (x ^ (truncQ (b - 1)).toNat)) / b < rootEps
    · simp only [if_pos hconv]
      exact ⟨_, 1, rfl, by omega⟩
    · simp only [if_neg hconv]
      obtain ⟨y, n, hy, hn⟩ := ih (((b - 1) * x + a / (x ^ (truncQ (b - 1)).toNat)) / b)
      rw [hy]
      exact ⟨y, n + 1, rfl, by omega⟩

lemma rootIter_count_le (a b : ℚ) :
    ∀ (fuel : ℕ) (x y : ℚ) (n : ℕ),
      rootIter a b x fuel = .ok (y, n) → n ≤ fuel := by
  intro fuel
  induction fuel with
  | zero =>
    intro x y n h
    rw [rootIter] at h
    have h2 := (Except.ok.injEq _ _).mp h
    have h3 : n = 0 := ((Prod.mk.injEq _ _ _ _).mp h2).2.symm
    omega
  | succ fuel ih =>
    intro x y n h
    rw [rootIter] at h
    cases hp : Calculator.power x (b - 1) with
    | error er =>
      rw [hp] at h
      exact absurd h (by simp)
    | ok p =>
      rw [hp] at h
      by_cases hconv : -rootEps < x - ((b - 1) * x + a / p) / b ∧
          x - ((b - 1) * x + a / p) / b < rootEps
      · simp only [if_pos hconv] at h
        have := (Except.ok.injEq _ _).mp h
        have hn : n = 1 := ((Prod.mk.injEq _ _ _ _).mp this |>.2).symm
        omega
      · simp only [if_neg hconv] at h
        cases hrec : rootIter a b (((b - 1) * x + a / p) / b) fuel with
        | error er =>
          rw [hrec] at h
          exact absurd h (by simp)
        | ok yn =>
          rw [hrec] at h
          obtain ⟨y', n'⟩ := yn
          have h2 := (Except.ok.injEq _ _).mp h
          have hn : n = n' + 1 := ((Prod.mk.injEq _ _ _ _).mp h2 |>.2).symm
          have := ih _ _ _ hrec
          omega

lemma floor_lt_one_of_trunc_nonpos (b : ℚ) (hb0 : 0 < b) (ht : truncQ b ≤ 0) :
    b < 1 := by
  rw [truncQ_of_nonneg (le_of_lt hb0)] at ht
  have := Int.lt_floor_add_one b
  calc b < (⌊b⌋ : ℚ) + 1 := this
    _ ≤ 0 + 1 := by
      have : (⌊b⌋ : ℚ) ≤ 0 := by exact_mod_cast ht
      linarith
    _ = 1 := by norm_num

lemma root_loop_err_of_small (a b : ℚ) (hi : Calculator.isInteger b = true)
    (hb0 : 0 < b) (ht : truncQ b ≤ 0) (ha : ¬ a < 0) :
    Calculator.root a b = .error .InvalidArgument := by
  have hlt1 : b < 1 := floor_lt_one_of_trunc_nonpos b hb0 ht
  unfold Calculator.root
  rw [if_neg (by simp [hi, not_le.mpr hb0]), if_neg (by simp [ha])]
  have hne : b - 1 ≠ 0 := by
    intro h
    have hb1 : b = 1 := sub_eq_zero.mp h
    linarith
  have hp : Calculator.power (a / 2) (b - 1) = .error .InvalidArgument := by
    unfold Calculator.power
    rw [if_neg hne, if_pos (Or.inr (by linarith))]
  rw [show (1000 : ℕ) = 999 + 1 from rfl, rootIter, hp]

/-- C8, counterexample: `b = 1e-13` passes both of `root`'s pre-loop
guards — it is accepted by the `isInteger` gate, is `> 0`, and the
radicand `8` is non-negative — yet `root(8, 1e-13)` raises
`InvalidArgument`: the rejection comes from the first Newton–Raphson
iteration, where `power(x, b-1)` is called with the negative exponent
`1e-13 - 1`.  The claim's assertion that all `InvalidArgument`
rejections happen before the loop starts is therefore false. -/
theorem c8_counterexample :
    ¬ (Calculator.isInteger (1 / 10 ^ 13) = false ∨ (1 / 10 ^ 13 : ℚ) ≤ 0) ∧
    ¬ ((8 : ℚ) < 0 ∧ truncQ (1 / 10 ^ 13) % 2 = 0) ∧
    Calculator.root 8 (1 / 10 ^ 13) = .error .InvalidArgument := by
  refine ⟨?_, ?_, ?_⟩
  · rw [not_or]
    constructor
    · norm_num [Calculator.isInteger, truncQ, intEps]
    · norm_num
  · rintro ⟨h, _⟩
    norm_num at h
  · exact root_loop_err_of_small 8 (1 / 10 ^ 13)
      (by norm_num [Calculator.isInteger, truncQ, intEps])
      (by norm_num)
      (by rw [truncQ_of_nonneg (by norm_num)]
          rw [Int.floor_eq_zero_iff.mpr (by constructor <;> norm_num)])
      (by norm_num)

lemma root_ok_valid (a b : ℚ) (hi : Calculator.isInteger b = true)
    (hb : 1 ≤ truncQ b) (hg : ¬ (a < 0 ∧ truncQ b % 2 = 0)) :
    ∃ y n, rootIter a b (a / 2) 1000 = .ok (y, n) ∧ n ≤ 1000 ∧
      Calculator.root a b = .ok y := by
  have hbpos : 0 < b := by
    by_contra hc
    push_neg at hc
    rcases eq_or_lt_of_le hc with h | h
    · subst h
      rw [show truncQ 0 = 0 by norm_num [truncQ]] at hb
      omega
    · rw [truncQ_of_neg (not_le.mpr h)] at hb
      have : ⌈b⌉ ≤ 0 := Int.ceil_le.mpr (by exact_mod_cast le_of_lt h)
      omega
  obtain ⟨y, n, hy, hn⟩ := rootIter_ok a b hi hb 1000 (a / 2)
  refine ⟨y, n, hy, hn, ?_⟩
  unfold Calculator.root
  rw [if_neg (by simp [hi, not_le.mpr hbpos]), if_neg hg, hy]

/-- C8, amended: `root(a,b)` raises `InvalidArgument` exactly when `b`
is not effectively a positive integer (`isInteger` rejects `b`, or
`b`'s truncation is `≤ 0`) or `b` is even and `a < 0`.  The two guard
rejections (`b` not accepted as a positive value, and even-degree
negative radicand) happen before the Newton–Raphson loop; but for
`0 < b < 1e-12` the rejection instead comes from inside the first loop
iteration, via `power`'s negative-exponent check.  On every accepted
input the loop executes at most `1000` iterations (and in general any
run of the loop that returns performs at most its iteration budget). -/
theorem c8_amended :
    (∀ a b : ℚ, (Calculator.isInteger b = false ∨ b ≤ 0) →
      Calculator.root a b = .error .InvalidArgument) ∧
    (∀ a b : ℚ, Calculator.isInteger b = true → 0 < b → a < 0 →
      truncQ b % 2 = 0 → Calculator.root a b = .error .InvalidArgument) ∧
    (∀ a b : ℚ, Calculator.root a b = .error .InvalidArgument ↔
      (Calculator.isInteger b = false ∨ truncQ b ≤ 0 ∨
        (a < 0 ∧ truncQ b % 2 = 0))) ∧
    (∀ a b : ℚ, Calculator.isInteger b = true → 1 ≤ truncQ b →
      ¬ (a < 0 ∧ truncQ b % 2 = 0) →
      ∃ y n, rootIter a b (a / 2) 1000 = .ok (y, n) ∧ n ≤ 1000 ∧
        Calculator.root a b = .ok y) ∧
    (∀ a b x y : ℚ, ∀ fuel n : ℕ,
      rootIter a b x fuel = .ok (y, n) → n ≤ fuel) ∧
    Calculator.root (-8) 2 = .error .InvalidArgument ∧
    Calculator.root 8 0 = .error .InvalidArgument := by
  have hguard1 : ∀ a b : ℚ, (Calculator.isInteger b = false ∨ b ≤ 0) →
      Calculator.root a b = .error .InvalidArgument := by
    intro a b h
    unfold Calculator.root
    rw [if_pos (by rcases h with h | h
                   · exact Or.inl h
                   · exact Or.inr h)]
  have hguard2 : ∀ a b : ℚ, Calculator.isInteger b = true → 0 < b → a < 0 →
      truncQ b % 2 = 0 → Calculator.root a b = .error .InvalidArgument := by
    intro a b hi hb ha hev
    unfold Calculator.root
    rw [if_neg (by simp [hi, not_le.mpr hb]), if_pos ⟨ha, hev⟩]
  have hok : ∀ a b : ℚ, Calculator.isInteger b = true → 1 ≤ truncQ b →
      ¬ (a < 0 ∧ truncQ b % 2 = 0) →
      ∃ y n, rootIter a b (a / 2) 1000 = .ok (y, n) ∧ n ≤ 1000 ∧
        Calculator.root a b = .ok y :=
    fun a b hi hb hg => root_ok_valid a b hi hb hg
  refine ⟨hguard1, hguard2, ?_, hok, ?_, ?_, ?_⟩
  · intro a b
    constructor
    · intro h
      by_contra hcon
      push_neg at hcon
      obtain ⟨hi, ht, hg⟩ := hcon
      have hi' : Calculator.isInteger b = true := by
        cases hq : Calculator.isInteger b
        · exact absurd hq hi
        · rfl
      obtain ⟨y, n, _, _, hroot⟩ := hok a b hi' (by omega) (by
        intro ⟨h1, h2⟩
        exact absurd (hg h1) (by simp [h2]))
      rw [hroot] at h
      exact absurd h (by simp)
    · intro h
      rcases h with h | h | h
      · exact hguard1 a b (Or.inl h)
      · by_cases hi : Calculator.isInteger b = true
        · by_cases hbpos : 0 < b
          · by_cases ha : a < 0
            · refine hguard2 a b hi hbpos ha ?_
              have h0 : 0 ≤ truncQ b := by
                rw [truncQ_of_nonneg (le_of_lt hbpos)]
                exact Int.floor_nonneg.mpr (le_of_lt hbpos)
              omega
            · exact root_loop_err_of_small a b hi hbpos h ha
          · exact hguard1 a b (Or.inr (not_lt.mp hbpos))
        · exact hguard1 a b (Or.inl (by simpa using hi))
      · obtain ⟨ha, hev⟩ := h
        by_cases hi : Calculator.isInteger b = true
        · by_cases hbpos : 0 < b
          · exact hguard2 a b hi hbpos ha hev
          · exact hguard1 a b (Or.inr (not_lt.mp hbpos))
        · exact hguard1 a b (Or.inl (by simpa using hi))
  · intro a b x y fuel n h
    exact rootIter_count_le a b fuel x y n h
  · exact hguard2 (-8) 2
      (by norm_num [Calculator.isInteger, truncQ, intEps]) (by norm_num)
      (by norm_num) (by norm_num [truncQ])
  · exact hguard1 8 0 (Or.inr (by norm_num))

/-- C8, witness: the accepted-input characterization applied at
`root(8, 3)` and the guard rejection applied at `root(8, 0)`. -/
theorem c8_witness :
    (Calculator.isInteger 3 = true ∧ 1 ≤ truncQ 3 ∧
        ¬ ((8 : ℚ) < 0 ∧ truncQ 3 % 2 = 0)) ∧
      (∃ y n, rootIter 8 3 (8 / 2) 1000 = .ok (y, n) ∧ n ≤ 1000 ∧
        Calculator.root 8 3 = .ok y) :=
  ⟨⟨by norm_num [Calculator.isInteger, truncQ, intEps],
      by norm_num [truncQ],
      by rintro ⟨h, _⟩; norm_num at h⟩,
    c8_amended.2.2.2.1 8 3
      (by norm_num [Calculator.isInteger, truncQ, intEps])
      (by norm_num [truncQ])
      (by rintro ⟨h, _⟩; norm_num at h)⟩

/-! ## Helper lemmas about the reduction machinery -/

lemma lt_length_of_getElem?_some {α : Type} {l : List α} {i : ℕ} {a : α}
    (h : l[i]? = some a) : i < l.length := by
  by_contra hc
  rw [List.getElem?_eq_none (not_lt.mp hc)] at h
  exact absurd h (by simp)

lemma findFirst_spec (c : Char) :
    ∀ (l : List Char) (j : ℕ), findFirst c l = some j →
      j < l.length ∧ l[j]? = some c := by
  intro l
  induction l with
  | nil =>
    intro j h
    simp [findFirst] at h
  | cons d ds ih =>
    intro j h
    rw [findFirst] at h
    by_cases hd : d = c
    · rw [if_pos hd] at h
      have hj : 0 = j := Option.some.injEq _ _ ▸ (by simpa using h)
      subst hj
      simp [hd]
    · rw [if_neg hd] at h
      cases hf : findFirst c ds with
      | none =>
        rw [hf] at h
        simp at h
      | some j' =>
        rw [hf] at h
        have hj : j' + 1 = j := by simpa using h
        obtain ⟨h1, h2⟩ := ih j' hf
        subst hj
        refine ⟨by simpa using Nat.succ_lt_succ h1, by simpa using h2⟩

lemma hasChar_iff_mem (c : Char) : ∀ (l : List Char), hasChar c l = true ↔ c ∈ l := by
  intro l
  induction l with
  | nil => simp [hasChar]
  | cons d ds ih =>
    rw [hasChar]
    simp only [Bool.or_eq_true, decide_eq_true_eq, List.mem_cons, ih]
    constructor
    · rintro (h | h)
      · exact Or.inl h.symm
      · exact Or.inr h
    · rintro (h | h)
      · exact Or.inl h.symm
      · exact Or.inr h

lemma hasChar_findFirst (c : Char) :
    ∀ (l : List Char), hasChar c l = true → ∃ j, findFirst c l = some j := by
  intro l
  induction l with
  | nil => intro h; simp [hasChar] at h
  | cons d ds ih =>
    intro h
    rw [findFirst]
    by_cases hd : d = c
    · exact ⟨0, by rw [if_pos hd]⟩
    · rw [hasChar] at h
      simp only [Bool.or_eq_true, decide_eq_true_eq] at h
      rcases h with h | h
      · exact absurd h hd
      · obtain ⟨j, hj⟩ := ih h
        exact ⟨j + 1, by rw [if_neg hd, hj]; rfl⟩

lemma findLast_spec (c : Char) (l : List Char) (j : ℕ)
    (h : findLast c l = some j) : j < l.length ∧ l[j]? = some c := by
  unfold findLast at h
  cases hf : findFirst c l.reverse with
  | none =>
    rw [hf] at h
    simp at h
  | some j' =>
    rw [hf] at h
    have h2 : l.length - 1 - j' = j := by simpa using h
    obtain ⟨hlt, hget⟩ := findFirst_spec c l.reverse j' hf
    rw [List.length_reverse] at hlt
    rw [List.getElem?_reverse hlt] at hget
    constructor
    · omega
    · rw [← h2]
      exact hget

lemma hasChar_findLast (c : Char) (l : List Char) (h : hasChar c l = true) :
    ∃ j, findLast c l = some j := by
  have hmem : c ∈ l.reverse := by
    rw [List.mem_reverse]
    exact (hasChar_iff_mem c l).mp h
  obtain ⟨j', hj'⟩ := hasChar_findFirst c l.reverse ((hasChar_iff_mem c l.reverse).mpr hmem)
  exact ⟨l.length - 1 - j', by rw [findLast, hj']⟩

lemma getNum_ok_iff (nums : List ℚ) (j : ℕ) (v : ℚ) :
    getNum nums j = .ok v ↔ nums[j]? = some v := by
  unfold getNum
  cases h : nums[j]? <;> simp

lemma getNum_some (nums : List ℚ) (j : ℕ) (h : j < nums.length) :
    ∃ v, getNum nums j = .ok v ∧ nums[j]? = some v := by
  have hg : nums[j]? = some (nums.get ⟨j, h⟩) := by
    rw [List.getElem?_eq_getElem h]
    simp
  exact ⟨nums.get ⟨j, h⟩, (getNum_ok_iff nums j _).mpr hg, hg⟩

lemma binApply_spec (f : ℚ → ℚ → Res) (nums : List ℚ) (ops : List Char) (j : ℕ)
    (nums' : List ℚ) (ops' : List Char)
    (h : binApply f nums ops j = .ok (nums', ops')) :
    ∃ l r v, nums[j]? = some l ∧ nums[j + 1]? = some r ∧ f l r = .ok v ∧
      nums' = (nums.set j v).eraseIdx (j + 1) ∧ ops' = ops.eraseIdx j := by
  unfold binApply at h
  split at h
  · exact absurd h (by simp)
  · rename_i l h1
    split at h
    · exact absurd h (by simp)
    · rename_i r h2
      split at h
      · exact absurd h (by simp)
      · rename_i v h3
        have h4 := (Except.ok.injEq _ _).mp h
        have h5 : nums' = (nums.set j v).eraseIdx (j + 1) :=
          ((Prod.mk.injEq _ _ _ _).mp h4).1.symm
        have h6 : ops' = ops.eraseIdx j := ((Prod.mk.injEq _ _ _ _).mp h4).2.symm
        exact ⟨l, r, v, (getNum_ok_iff _ _ _).mp h1, (getNum_ok_iff _ _ _).mp h2,
          h3, h5, h6⟩

/-- The shape of every successful reduction step: some operator at
index `j` is consumed; a `'!'` step rewrites `nums[j]` in place, a
binary step merges positions `j` and `j+1`. -/
lemma calcStep_ok_shape (nums : List ℚ) (ops : List Char) (nums' : List ℚ)
    (ops' : List Char) (h : calcStep nums ops = .ok (nums', ops')) :
    ∃ j c, ops[j]? = some c ∧ ops' = ops.eraseIdx j ∧
      ((c = '!' ∧ j < nums.length ∧ ∃ v, nums' = nums.set j v) ∨
       (c ≠ '!' ∧ j + 1 < nums.length ∧ ∃ v,
         nums' = (nums.set j v).eraseIdx (j + 1))) := by
  have binCase : ∀ (f : ℚ → ℚ → Res) (c : Char), c ≠ '!' →
      ∀ j, findLast c ops = some j → binApply f nums ops j = .ok (nums', ops') →
      ∃ j c, ops[j]? = some c ∧ ops' = ops.eraseIdx j ∧
        ((c = '!' ∧ j < nums.length ∧ ∃ v, nums' = nums.set j v) ∨
         (c ≠ '!' ∧ j + 1 < nums.length ∧ ∃ v,
           nums' = (nums.set j v).eraseIdx (j + 1))) := by
    intro f c hc j hfl happ
    obtain ⟨l, r, v, hl, hr, _, hn, ho⟩ := binApply_spec f nums ops j _ _ happ
    exact ⟨j, c, (findLast_spec c ops j hfl).2, ho,
      Or.inr ⟨hc, lt_length_of_getElem?_some hr, v, hn⟩⟩
  unfold calcStep at h
  by_cases h1 : hasChar '!' ops = true
  · rw [if_pos h1] at h
    split at h
    · rename_i j hj
      split at h
      · exact absurd h (by simp)
      · rename_i l hg
        split at h
        · exact absurd h (by simp)
        · rename_i v hf
          have h4 := (Except.ok.injEq _ _).mp h
          refine ⟨j, '!', (findFirst_spec '!' ops j hj).2,
            ((Prod.mk.injEq _ _ _ _).mp h4).2.symm,
            Or.inl ⟨rfl, lt_length_of_getElem?_some ((getNum_ok_iff _ _ _).mp hg), v,
              ((Prod.mk.injEq _ _ _ _).mp h4).1.symm⟩⟩
    · exact absurd h (by simp)
  · rw [if_neg h1] at h
    by_cases h2 : hasChar 'r' ops = true
    · rw [if_pos h2] at h
      split at h
      · rename_i j hj
        exact binCase _ 'r' (by decide) j hj h
      · exact absurd h (by simp)
    · rw [if_neg h2] at h
      by_cases h3 : hasChar '^' ops = true
      · rw [if_pos h3] at h
        split at h
        · rename_i j hj
          exact binCase _ '^' (by decide) j hj h
        · exact absurd h (by simp)
      · rw [if_neg h3] at h
        by_cases h4 : hasChar '%' ops = true
        · rw [if_pos h4] at h
          split at h
          · rename_i j hj
            exact binCase _ '%' (by decide) j hj h
          · exact absurd h (by simp)
        · rw [if_neg h4] at h
          by_cases h5 : hasChar '/' ops = true
          · rw [if_pos h5] at h
            split at h
            · rename_i j hj
              exact binCase _ '/' (by decide) j hj h
            · exact absurd h (by simp)
          · rw [if_neg h5] at h
            by_cases h6 : hasChar '*' ops = true
            · rw [if_pos h6] at h
              split at h
              · rename_i j hj
                exact binCase _ '*' (by decide) j hj h
              · exact absurd h (by simp)
            · rw [if_neg h6] at h
              by_cases h7 : hasChar '-' ops = true
              · rw [if_pos h7] at h
                split at h
                · rename_i j hj
                  exact binCase _ '-' (by decide) j hj h
                · exact absurd h (by simp)
              · rw [if_neg h7] at h
                by_cases h8 : hasChar '+' ops = true
                · rw [if_pos h8] at h
                  split at h
                  · rename_i j hj
                    exact binCase _ '+' (by decide) j hj h
                  · exact absurd h (by simp)
                · rw [if_neg h8] at h
                  exact absurd h (by simp)

lemma binCount_cons (d : Char) (ds : List Char) :
    binCount (d :: ds) = (if d = '!' then 0 else 1) + binCount ds := by
  unfold binCount
  rw [List.filter_cons]
  by_cases hd : d = '!'
  · simp [hd]
  · simp [hd]
    omega

lemma binCount_eraseIdx (c : Char) :
    ∀ (ops : List Char) (j : ℕ), ops[j]? = some c →
      binCount (ops.eraseIdx j) + (if c = '!' then 0 else 1) = binCount ops := by
  intro ops
  induction ops with
  | nil =>
    intro j h
    simp at h
  | cons d ds ih =>
    intro j h
    cases j with
    | zero =>
      have hd : d = c := by simpa using h
      subst hd
      rw [List.eraseIdx_cons_zero, binCount_cons]
      ring
    | succ j' =>
      rw [List.eraseIdx_cons_succ, binCount_cons, binCount_cons]
      have := ih j' (by simpa using h)
      omega

/-! ## Claim C1 — reduction order -/

lemma fact_three : Calculator.fact 3 = .ok 6 := by
  rw [fact_ok 3 (by norm_num) (by norm_num [Calculator.isInteger, truncQ, intEps])
    (by norm_num [truncQ]),
    show truncQ 3 = 3 by norm_num [truncQ], show ((3 : ℤ)).toNat = 3 from rfl]
  norm_num [Nat.factorial]

/-- C1, counterexample: the reduction loop does not use the rightmost
occurrence for `'!'`.  On the state `nums = [3, 4]`, `ops = "!+!"`
(the state produced by tokenizing `"3!+4!"`), the code resolves the
`'!'` found by `ops.find('!', 0)` — the leftmost one, at index 0,
factorializing `nums[0] = 3` — whereas the claimed last-occurrence
rule would pick index 2 and read the out-of-bounds operand `nums[2]`. -/
theorem c1_counterexample :
    calcStep [3, 4] ['!', '+', '!'] = .ok ([6, 4], ['+', '!']) ∧
    bangStepRightmost [3, 4] ['!', '+', '!'] = .error .OutOfBounds := by
  constructor
  · simp [calcStep, hasChar, findFirst, getNum, fact_three]
  · simp [bangStepRightmost, findLast, findFirst, getNum]

/-- C1, amended: the evaluator reduces by the fixed priority order
`!`, `r`, `^`, `%`, `/`, `*`, `-`, `+`, resolving the **last**
(rightmost) occurrence first within each *binary* operator class —
`2^3^2 = 2^(3^2) = 512`, `10-3-2 = 10-(3-2) = 9`,
`100/10/5 = 100/(10/5) = 50`, and `*` still binds before `+`
(`3+5*2 = 13`) — while the unary `!` class alone resolves its
**first** (leftmost) occurrence, which keeps the `'!'` operator
indices aligned with their operands. -/
theorem c1_amended :
    calculateStr "2^3^2" = .ok 512 ∧
    calculateStr "10-3-2" = .ok 9 ∧
    calculateStr "100/10/5" = .ok 50 ∧
    calculateStr "3+5*2" = .ok 13 ∧
    calcStep [3, 4] ['!', '+', '!'] = .ok ([6, 4], ['+', '!']) := by
  refine ⟨?_, ?_, ?_, ?_, ?_⟩
  · have hp1 : Calculator.power 3 2 = .ok 9 := by
      rw [power_ok 3 2 (by norm_num [Calculator.isInteger, truncQ, intEps]) (by norm_num),
        show truncQ 2 = 2 by norm_num [truncQ], show ((2 : ℤ)).toNat = 2 from rfl]
      norm_num
    have hp2 : Calculator.power 2 9 = .ok 512 := by
      rw [power_ok 2 9 (by norm_num [Calculator.isInteger, truncQ, intEps]) (by norm_num),
        show truncQ 9 = 9 by norm_num [truncQ], show ((9 : ℤ)).toNat = 9 from rfl]
      norm_num
    have htok : tokenize "2^3^2".data = .ok ([2, 3, 2], ['^', '^']) := by
      simp [tokenize, tokAux, tokEnd, substNum, parseNum, parseNumCore, takeDigits,
        digitsVal, isDigitCh, isOp, opChars, hasSubstr, headMatches, hasChar]
    rw [calculateStr, calculate, htok]
    simp [calcReduce, calcStep, findLast, findFirst, getNum, binApply, hasChar, hp1, hp2]
  · have hs1 : Calculator.sub 3 2 = .ok 1 := by
      rw [Calculator.sub]
      norm_num
    have hs2 : Calculator.sub 10 1 = .ok 9 := by
      rw [Calculator.sub]
      norm_num
    have htok : tokenize "10-3-2".data = .ok ([10, 3, 2], ['-', '-']) := by
      simp [tokenize, tokAux, tokEnd, substNum, parseNum, parseNumCore, takeDigits,
        digitsVal, isDigitCh, isOp, opChars, hasSubstr, headMatches, hasChar]
    rw [calculateStr, calculate, htok]
    simp [calcReduce, calcStep, findLast, findFirst, getNum, binApply, hasChar, hs1, hs2]
  · have hd1 : Calculator.div 10 5 = .ok 2 := by
      rw [Calculator.div, if_neg (by norm_num)]
      norm_num
    have hd2 : Calculator.div 100 2 = .ok 50 := by
      rw [Calculator.div, if_neg (by norm_num)]
      norm_num
    have htok : tokenize "100/10/5".data = .ok ([100, 10, 5], ['/', '/']) := by
      simp [tokenize, tokAux, tokEnd, substNum, parseNum, parseNumCore, takeDigits,
        digitsVal, isDigitCh, isOp, opChars, hasSubstr, headMatches, hasChar]
    rw [calculateStr, calculate, htok]
    simp [calcReduce, calcStep, findLast, findFirst, getNum, binApply, hasChar, hd1, hd2]
  · have hm1 : Calculator.mul 5 2 = .ok 10 := by
      rw [Calculator.mul]
      norm_num
    have ha1 : Calculator.add 3 10 = .ok 13 := by
      rw [Calculator.add]
      norm_num
    have htok : tokenize "3+5*2".data = .ok ([3, 5, 2], ['+', '*']) := by
      simp [tokenize, tokAux, tokEnd, substNum, parseNum, parseNumCore, takeDigits,
        digitsVal, isDigitCh, isOp, opChars, hasSubstr, headMatches, hasChar]
    rw [calculateStr, calculate, htok]
    simp [calcReduce, calcStep, findLast, findFirst, getNum, binApply, hasChar, hm1, ha1]
  · simp [calcStep, hasChar, findFirst, getNum, fact_three]

/-! ## Claim C2 — the length invariant -/

/-- C2, counterexample: tokenizing `"5!"` yields one operand and one
operator, so immediately after tokenization the operand sequence is
*not* one element longer than the operator sequence — yet the evaluator
accepts the expression (`5! = 120`). -/
theorem c2_counterexample :
    tokenize "5!".data = .ok ([5], ['!']) ∧
    calculateStr "5!" = .ok 120 ∧
    ¬ (([(5 : ℚ)] : List ℚ).length = (['!'] : List Char).length + 1) := by
  have hf : Calculator.fact 5 = .ok 120 := by
    rw [fact_ok 5 (by norm_num) (by norm_num [Calculator.isInteger, truncQ, intEps])
      (by norm_num [truncQ]),
      show truncQ 5 = 5 by norm_num [truncQ], show ((5 : ℤ)).toNat = 5 from rfl]
    norm_num [Nat.factorial]
  have htok : tokenize "5!".data = .ok ([5], ['!']) := by
    simp [tokenize, tokAux, tokEnd, substNum, parseNum, parseNumCore, takeDigits,
      digitsVal, isDigitCh, isOp, opChars, hasSubstr, headMatches, hasChar]
  refine ⟨htok, ?_, by simp⟩
  rw [calculateStr, calculate, htok]
  simp [calcReduce, calcStep, findFirst, getNum, hasChar, hf]

/-- C2, amended: the quantity `len(operands) - len(binary operators)`
is exactly preserved by every reduction step (a `'!'` step removes only
its operator; a binary step removes one operand and one operator), and
hence the lower bound `len(operands) ≥ len(binary operators) + 1` is
preserved as well; reduction terminates when the operator sequence is
empty and returns the first remaining operand.  (Unary `!` operators
are excluded from the count because tokenization pushes no operand for
them; with `!` in the expression the claimed equality
`len(operands) = len(operators) + 1` already fails at tokenization.) -/
theorem c2_amended :
    (∀ (nums : List ℚ) (ops : List Char) (nums' : List ℚ) (ops' : List Char),
      calcStep nums ops = .ok (nums', ops') →
      nums'.length + binCount ops = nums.length + binCount ops') ∧
    (∀ (nums : List ℚ) (ops : List Char) (nums' : List ℚ) (ops' : List Char),
      calcStep nums ops = .ok (nums', ops') →
      binCount ops + 1 ≤ nums.length → binCount ops' + 1 ≤ nums'.length) ∧
    (∀ (fuel : ℕ) (nums : List ℚ) (v : ℚ), nums[0]? = some v →
      calcReduce fuel nums [] = .ok v) := by
  have hpres : ∀ (nums : List ℚ) (ops : List Char) (nums' : List ℚ) (ops' : List Char),
      calcStep nums ops = .ok (nums', ops') →
      nums'.length + binCount ops = nums.length + binCount ops' := by
    intro nums ops nums' ops' h
    obtain ⟨j, c, hget, hops', hcase⟩ := calcStep_ok_shape nums ops nums' ops' h
    have hbc := binCount_eraseIdx c ops j hget
    rcases hcase with ⟨hc, hjlt, v, hn⟩ | ⟨hc, hjlt, v, hn⟩
    · subst hc
      rw [if_pos rfl] at hbc
      rw [hn, hops', List.length_set]
      omega
    · rw [if_neg hc] at hbc
      rw [hn, hops', List.length_eraseIdx, List.length_set]
      rw [if_pos hjlt]
      omega
  refine ⟨hpres, ?_, ?_⟩
  · intro nums ops nums' ops' h hlen
    have := hpres nums ops nums' ops' h
    obtain ⟨j, c, hget, hops', hcase⟩ := calcStep_ok_shape nums ops nums' ops' h
    have hbc := binCount_eraseIdx c ops j hget
    rcases hcase with ⟨hc, _, _, _⟩ | ⟨hc, _, _, _⟩
    · subst hc
      rw [if_pos rfl] at hbc
      omega
    · rw [if_neg hc] at hbc
      omega
  · intro fuel nums v hv
    cases fuel with
    | zero =>
      rw [calcReduce, if_pos List.isEmpty_nil]
      exact (getNum_ok_iff nums 0 v).mpr hv
    | succ fuel =>
      rw [calcReduce, if_pos List.isEmpty_nil]
      exact (getNum_ok_iff nums 0 v).mpr hv

/-- C2, witness: the preservation law applied to the step
`([1, 2], "+") → ([3], "")`, and termination applied to `[7]`. -/
theorem c2_witness :
    calcStep [1, 2] ['+'] = .ok ([3], []) ∧
    (([3] : List ℚ).length + binCount ['+'] =
      ([1, 2] : List ℚ).length + binCount []) ∧
    calcReduce 0 [7] [] = .ok 7 := by
  have hstep : calcStep [1, 2] ['+'] = .ok ([3], []) := by
    have ha : Calculator.add 1 2 = .ok 3 := by
      rw [Calculator.add]
      norm_num
    simp [calcStep, hasChar, findLast, findFirst, getNum, binApply, ha]
  exact ⟨hstep, c2_amended.1 [1, 2] ['+'] [3] [] hstep,
    c2_amended.2.2 0 [7] 7 (by simp)⟩

/-! ## Claim C3 — binary-step semantics -/

/-- C3, counterexample: for the `r` class the evaluator does *not*
apply the primitive to `(left, right)`.  On the state `([3, -8], "r")`
— the state tokenizing `"3r-8"` produces — the code calls
`root(op_right, op_left) = root(-8, 3)` (the cube root of `-8`), which
succeeds; applying `root` to the operands in the claimed order would
be `root(3, -8)`, which throws `InvalidArgument` (degree `-8 ≤ 0`). -/
theorem c3_counterexample :
    (∃ v, calcStep [3, -8] ['r'] = .ok v) ∧
    Calculator.root 3 (-8) = .error .InvalidArgument := by
  constructor
  · have hroot : ∃ y, Calculator.root (-8) 3 = .ok y := by
      obtain ⟨y, n, _, _, hr⟩ := root_ok_valid (-8) 3
        (by norm_num [Calculator.isInteger, truncQ, intEps])
        (by norm_num [truncQ])
        (by rintro ⟨_, h⟩; rw [show truncQ 3 = 3 by norm_num [truncQ]] at h; omega)
      exact ⟨y, hr⟩
    obtain ⟨y, hy⟩ := hroot
    refine ⟨([y], []), ?_⟩
    simp [calcStep, hasChar, findLast, findFirst, getNum, binApply, hy]
  · unfold Calculator.root
    rw [if_pos (Or.inr (by norm_num))]

/-- C3, amended: every successful binary reduction step reads the
operand at the operator's position and the next operand, applies the
branch's primitive, writes the result into the left position, deletes
the right operand and the operator, and leaves every other operand
position unchanged; the `^`, `%`, `/`, `*`, `-`, `+` branches apply
their primitive to `(left, right)` in that order, while the `r` branch
alone applies `root(right, left)`. -/
theorem c3_amended :
    (∀ (f : ℚ → ℚ → Res) (nums : List ℚ) (ops : List Char) (j : ℕ)
        (nums' : List ℚ) (ops' : List Char),
      binApply f nums ops j = .ok (nums', ops') →
      ∃ l r v, nums[j]? = some l ∧ nums[j + 1]? = some r ∧ f l r = .ok v ∧
        ops' = ops.eraseIdx j ∧
        nums'.length + 1 = nums.length ∧
        nums'[j]? = some v ∧
        (∀ i, i < j → nums'[i]? = nums[i]?) ∧
        (∀ i, j < i → nums'[i]? = nums[i + 1]?)) ∧
    (∀ l r : ℚ, calcStep [l, r] ['^'] = binApply Calculator.power [l, r] ['^'] 0) ∧
    (∀ l r : ℚ, calcStep [l, r] ['%'] = binApply Calculator.modulo [l, r] ['%'] 0) ∧
    (∀ l r : ℚ, calcStep [l, r] ['/'] = binApply Calculator.div [l, r] ['/'] 0) ∧
    (∀ l r : ℚ, calcStep [l, r] ['*'] = binApply Calculator.mul [l, r] ['*'] 0) ∧
    (∀ l r : ℚ, calcStep [l, r] ['-'] = binApply Calculator.sub [l, r] ['-'] 0) ∧
    (∀ l r : ℚ, calcStep [l, r] ['+'] = binApply Calculator.add [l, r] ['+'] 0) ∧
    (∀ l r : ℚ, calcStep [l, r] ['r'] =
      binApply (fun x y => Calculator.root y x) [l, r] ['r'] 0) := by
  refine ⟨?_, ?_, ?_, ?_, ?_, ?_, ?_, ?_⟩
  · intro f nums ops j nums' ops' h
    obtain ⟨l, r, v, hl, hr, hf, hn, ho⟩ := binApply_spec f nums ops j nums' ops' h
    have hjr : j + 1 < nums.length := lt_length_of_getElem?_some hr
    have hjl : j < nums.length := by omega
    refine ⟨l, r, v, hl, hr, hf, ho, ?_, ?_, ?_, ?_⟩
    · rw [hn, List.length_eraseIdx, List.length_set, if_pos hjr]
      omega
    · rw [hn, List.getElem?_eraseIdx_of_lt _ _ _ (by omega),
        List.getElem?_set_self hjl]
    · intro i hij
      rw [hn, List.getElem?_eraseIdx_of_lt _ _ _ (by omega),
        List.getElem?_set_ne (by omega)]
    · intro i hij
      rw [hn, List.getElem?_eraseIdx_of_ge _ _ _ (by omega),
        List.getElem?_set_ne (by omega)]
  · intro l r
    simp [calcStep, hasChar, findLast, findFirst]
  · intro l r
    simp [calcStep, hasChar, findLast, findFirst]
  · intro l r
    simp [calcStep, hasChar, findLast, findFirst]
  · intro l r
    simp [calcStep, hasChar, findLast, findFirst]
  · intro l r
    simp [calcStep, hasChar, findLast, findFirst]
  · intro l r
    simp [calcStep, hasChar, findLast, findFirst]
  · intro l r
    simp [calcStep, hasChar, findLast, findFirst]

/-- C3, witness: the step characterization applied to
`binApply add [1, 2] "+" 0 = ([3], "")`. -/
theorem c3_witness :
    binApply Calculator.add [1, 2] ['+'] 0 = .ok ([3], []) ∧
    (∃ l r v, ([1, 2] : List ℚ)[0]? = some l ∧ ([1, 2] : List ℚ)[0 + 1]? = some r ∧
      Calculator.add l r = .ok v ∧
      ([] : List Char) = (['+'] : List Char).eraseIdx 0 ∧
      ([3] : List ℚ).length + 1 = ([1, 2] : List ℚ).length ∧
      ([3] : List ℚ)[0]? = some v ∧
      (∀ i, i < 0 → ([3] : List ℚ)[i]? = ([1, 2] : List ℚ)[i]?) ∧
      (∀ i, 0 < i → ([3] : List ℚ)[i]? = ([1, 2] : List ℚ)[i + 1]?)) := by
  have happ : binApply Calculator.add [1, 2] ['+'] 0 = .ok ([3], []) := by
    have ha : Calculator.add 1 2 = .ok 3 := by
      rw [Calculator.add]
      norm_num
    simp [binApply, getNum, ha]
  exact ⟨happ, c3_amended.1 Calculator.add [1, 2] ['+'] 0 [3] [] happ⟩

/-! ## Claim C9 — `div` and failure propagation -/

/-- C9: `div(a,b)` raises `DivideByZero` exactly when `b == 0` and
otherwise returns `a / b`; a failing reduction step makes the whole
reduction loop return that exact error (no retries, no clamping, no
partial result); and a division with right operand `0` inside an
expression surfaces `DivideByZero` from the evaluator, both when the
division is reduced first (`1/0+3`) and when other operators surround
it (`2*3/0-1`). -/
theorem c9_theorem :
    (∀ a b : ℚ, Calculator.div a b = .error .DivideByZero ↔ b = 0) ∧
    (∀ a b : ℚ, b ≠ 0 → Calculator.div a b = .ok (a / b)) ∧
    (∀ (fuel : ℕ) (nums : List ℚ) (ops : List Char) (er : Err),
      ops ≠ [] → calcStep nums ops = .error er →
      calcReduce (fuel + 1) nums ops = .error er) ∧
    calculateStr "1/0+3" = .error .DivideByZero ∧
    calculateStr "2*3/0-1" = .error .DivideByZero := by
  refine ⟨?_, ?_, ?_, ?_, ?_⟩
  · intro a b
    unfold Calculator.div
    by_cases hb : b = 0
    · simp [hb]
    · simp [hb]
  · intro a b hb
    unfold Calculator.div
    rw [if_neg hb]
  · intro fuel nums ops er hne hstep
    rw [calcReduce, if_neg (by simp [List.isEmpty_iff, hne]), hstep]
  · have hdiv : Calculator.div 1 0 = .error .DivideByZero := by
      rw [Calculator.div, if_pos rfl]
    have htok : tokenize "1/0+3".data = .ok ([1, 0, 3], ['/', '+']) := by
      simp [tokenize, tokAux, tokEnd, substNum, parseNum, parseNumCore, takeDigits,
        digitsVal, isDigitCh, isOp, opChars, hasSubstr, headMatches, hasChar]
    rw [calculateStr, calculate, htok]
    simp [calcReduce, calcStep, findLast, findFirst, getNum, binApply, hasChar, hdiv]
  · have hdiv : Calculator.div 3 0 = .error .DivideByZero := by
      rw [Calculator.div, if_pos rfl]
    have htok : tokenize "2*3/0-1".data = .ok ([2, 3, 0, 1], ['*', '/', '-']) := by
      simp [tokenize, tokAux, tokEnd, substNum, parseNum, parseNumCore, takeDigits,
        digitsVal, isDigitCh, isOp, opChars, hasSubstr, headMatches, hasChar]
    rw [calculateStr, calculate, htok]
    simp [calcReduce, calcStep, findLast, findFirst, getNum, binApply, hasChar, hdiv]

/-- C9, witness: propagation applied to the failing step on
`([1, 0], "/")`, and the quotient form applied at `div(1, 2)`. -/
theorem c9_witness :
    (((2 : ℚ) ≠ 0) ∧ Calculator.div 1 2 = .ok (1 / 2)) ∧
    ((['/'] : List Char) ≠ [] ∧
      calcStep [1, 0] ['/'] = .error .DivideByZero ∧
      calcReduce 1 [1, 0] ['/'] = .error .DivideByZero) := by
  have hdiv : Calculator.div 1 0 = .error .DivideByZero := by
    rw [Calculator.div, if_pos rfl]
  have hstep : calcStep [1, 0] ['/'] = .error .DivideByZero := by
    simp [calcStep, hasChar, findLast, findFirst, getNum, binApply, hdiv]
  exact ⟨⟨by norm_num, c9_theorem.2.1 1 2 (by norm_num)⟩,
    ⟨by simp, hstep, c9_theorem.2.2.1 0 [1, 0] ['/'] .DivideByZero (by simp) hstep⟩⟩

/-! ## Claim C10 — bounds safety: the reduction side -/

lemma div_only_dbz (a b : ℚ) (er : Err) (h : Calculator.div a b = .error er) :
    er = .DivideByZero := by
  unfold Calculator.div at h
  by_cases hb : b = 0
  · rw [if_pos hb] at h
    exact ((Except.error.injEq _ _).mp h).symm
  · rw [if_neg hb] at h
    exact absurd h (by simp)

lemma modulo_err_kind (a b : ℚ) (er : Err) (h : Calculator.modulo a b = .error er) :
    er = .DivideByZero ∨ er = .InvalidArgument := by
  unfold Calculator.modulo at h
  by_cases hb : b = 0
  · rw [if_pos hb] at h
    exact Or.inl ((Except.error.injEq _ _).mp h).symm
  · rw [if_neg hb] at h
    by_cases hg : Calculator.isInteger a = false ∨ Calculator.isInteger b = false
    · rw [if_pos hg] at h
      exact Or.inr ((Except.error.injEq _ _).mp h).symm
    · rw [if_neg hg] at h
      exact absurd h (by simp)

lemma fact_err_kind (a : ℚ) (er : Err) (h : Calculator.fact a = .error er) :
    er = .InvalidArgument ∨ er = .Overflow := by
  unfold Calculator.fact at h
  by_cases h0 : a < 0
  · rw [if_pos h0] at h
    exact Or.inl ((Except.error.injEq _ _).mp h).symm
  · rw [if_neg h0] at h
    by_cases hi : Calculator.isInteger a = false
    · rw [if_pos hi] at h
      exact Or.inl ((Except.error.injEq _ _).mp h).symm
    · rw [if_neg hi] at h
      by_cases h01 : a = 0 ∨ a = 1
      · rw [if_pos h01] at h
        exact absurd h (by simp)
      · rw [if_neg h01] at h
        exact Or.inr (factLoop_only_overflow a _ _ _ er h)

lemma rootIter_err_kind (a b : ℚ) :
    ∀ (fuel : ℕ) (x : ℚ) (er : Err), rootIter a b x fuel = .error er →
      er = .InvalidArgument := by
  intro fuel
  induction fuel with
  | zero =>
    intro x er h
    rw [rootIter] at h
    exact absurd h (by simp)
  | succ fuel ih =>
    intro x er h
    rw [rootIter] at h
    cases hp : Calculator.power x (b - 1) with
    | error er' =>
      rw [hp] at h
      simp only at h
      exact (power_only_invalid x (b - 1) er' hp) ▸ ((Except.error.injEq _ _).mp h).symm
    | ok p =>
      rw [hp] at h
      simp only at h
      by_cases hconv : -rootEps < x - ((b - 1) * x + a / p) / b ∧
          x - ((b - 1) * x + a / p) / b < rootEps
      · rw [if_pos hconv] at h
        exact absurd h (by simp)
      · rw [if_neg hconv] at h
        cases hrec : rootIter a b (((b - 1) * x + a / p) / b) fuel with
        | error er2 =>
          rw [hrec] at h
          simp only at h
          exact (ih _ er2 hrec) ▸ ((Except.error.injEq _ _).mp h).symm
        | ok yn =>
          rw [hrec] at h
          obtain ⟨y, n⟩ := yn
          simp only at h
          exact absurd h (by simp)

lemma root_err_kind (a b : ℚ) (er : Err) (h : Calculator.root a b = .error er) :
    er = .InvalidArgument := by
  unfold Calculator.root at h
  by_cases h1 : Calculator.isInteger b = false ∨ b ≤ 0
  · rw [if_pos h1] at h
    exact ((Except.error.injEq _ _).mp h).symm
  · rw [if_neg h1] at h
    by_cases h2 : a < 0 ∧ truncQ b % 2 = 0
    · rw [if_pos h2] at h
      exact ((Except.error.injEq _ _).mp h).symm
    · rw [if_neg h2] at h
      split at h
      · rename_i er' hiter
        exact (rootIter_err_kind a b 1000 (a / 2) er' hiter) ▸
          ((Except.error.injEq _ _).mp h).symm
      · exact absurd h (by simp)

lemma binApply_no_oob (f : ℚ → ℚ → Res)
    (hf : ∀ l r er, f l r = .error er → er ≠ .OutOfBounds)
    (nums : List ℚ) (ops : List Char) (j : ℕ) (hj1 : j + 1 < nums.length) :
    (∃ nums' ops', binApply f nums ops j = .ok (nums', ops')) ∨
    (∃ er, binApply f nums ops j = .error er ∧ er ≠ .OutOfBounds) := by
  obtain ⟨l, hgl, _⟩ := getNum_some nums j (by omega)
  obtain ⟨r, hgr, _⟩ := getNum_some nums (j + 1) hj1
  unfold binApply
  rw [hgl]
  simp only
  rw [hgr]
  simp only
  cases hfr : f l r with
  | ok v => exact Or.inl ⟨_, _, rfl⟩
  | error er => exact Or.inr ⟨er, rfl, hf l r er hfr⟩

lemma findFirst_min (c : Char) :
    ∀ (l : List Char) (j : ℕ), findFirst c l = some j →
      ∀ k, k < j → l[k]? ≠ some c := by
  intro l
  induction l with
  | nil =>
    intro j h
    simp [findFirst] at h
  | cons d ds ih =>
    intro j h k hk
    rw [findFirst] at h
    by_cases hd : d = c
    · rw [if_pos hd] at h
      have : j = 0 := by simpa using h.symm
      omega
    · rw [if_neg hd] at h
      cases hf : findFirst c ds with
      | none =>
        rw [hf] at h
        simp at h
      | some j' =>
        rw [hf] at h
        have hj : j' + 1 = j := by simpa using h
        cases k with
        | zero =>
          intro hc
          exact hd (by simpa using hc)
        | succ k' =>
          rw [List.getElem?_cons_succ]
          exact ih j' hf k' (by omega)

lemma binCount_ge_of_prefix :
    ∀ (ops : List Char) (j : ℕ), j ≤ ops.length →
      (∀ k, k < j → ops[k]? ≠ some '!') → j ≤ binCount ops := by
  intro ops
  induction ops with
  | nil =>
    intro j hj _
    simp at hj
    omega
  | cons d ds ih =>
    intro j hj hpre
    cases j with
    | zero => omega
    | succ j' =>
      have hd : d ≠ '!' := by
        intro hc
        exact hpre 0 (by omega) (by simp [hc])
      rw [binCount_cons, if_neg hd]
      have := ih j' (by simpa using hj) (fun k hk => by
        have := hpre (k + 1) (by omega)
        simpa using this)
      omega

lemma binCount_eq_length (ops : List Char) (h : ∀ c ∈ ops, c ≠ '!') :
    binCount ops = ops.length := by
  unfold binCount
  rw [List.filter_eq_self.mpr (by intro c hc; simpa using h c hc)]

lemma opChar_cases (c : Char) (h : isOp c = true) :
    c = '+' ∨ c = '-' ∨ c = '*' ∨ c = '/' ∨ c = '%' ∨ c = '^' ∨ c = 'r' ∨ c = '!' := by
  unfold isOp opChars at h
  simpa using h

lemma calcStep_result (nums : List ℚ) (ops : List Char)
    (hall : ∀ c ∈ ops, isOp c = true) (hne : ops ≠ [])
    (hlen : binCount ops + 1 ≤ nums.length) :
    (∃ nums' ops', calcStep nums ops = .ok (nums', ops')) ∨
    (∃ er, calcStep nums ops = .error er ∧ er ≠ .OutOfBounds) := by
  by_cases h1 : hasChar '!' ops = true
  · obtain ⟨j, hj⟩ := hasChar_findFirst '!' ops h1
    have hspec := findFirst_spec '!' ops j hj
    have hjb : j ≤ binCount ops :=
      binCount_ge_of_prefix ops j (le_of_lt hspec.1) (findFirst_min '!' ops j hj)
    obtain ⟨l, hgl, _⟩ := getNum_some nums j (by omega)
    have hstep0 : calcStep nums ops =
        (match Calculator.fact l with
         | .error er => .error er
         | .ok v => .ok (nums.set j v, ops.eraseIdx j)) := by
      unfold calcStep
      rw [if_pos h1, hj]
      simp only
      rw [hgl]
    cases hfact : Calculator.fact l with
    | ok v =>
      refine Or.inl ⟨nums.set j v, ops.eraseIdx j, ?_⟩
      rw [hstep0, hfact]
    | error er =>
      refine Or.inr ⟨er, by rw [hstep0, hfact], ?_⟩
      rcases fact_err_kind l er hfact with h | h <;> simp [h]
  · have hnob : ∀ c ∈ ops, c ≠ '!' := by
      intro c hc hcontra
      exact absurd ((hasChar_iff_mem '!' ops).mpr (hcontra ▸ hc)) h1
    have hbc : binCount ops = ops.length := binCount_eq_length ops hnob
    have process : ∀ (c : Char) (f : ℚ → ℚ → Res),
        hasChar c ops = true →
        (∀ l r er, f l r = .error er → er ≠ .OutOfBounds) →
        (∀ j, findLast c ops = some j → calcStep nums ops = binApply f nums ops j) →
        (∃ nums' ops', calcStep nums ops = .ok (nums', ops')) ∨
        (∃ er, calcStep nums ops = .error er ∧ er ≠ .OutOfBounds) := by
      intro c f hc hf hstep
      obtain ⟨j, hj⟩ := hasChar_findLast c ops hc
      have hjlen := (findLast_spec c ops j hj).1
      have hj1 : j + 1 < nums.length := by omega
      rcases binApply_no_oob f hf nums ops j hj1 with ⟨nums', ops', h⟩ | ⟨er, h, hner⟩
      · exact Or.inl ⟨nums', ops', by rw [hstep j hj]; exact h⟩
      · exact Or.inr ⟨er, by rw [hstep j hj]; exact h, hner⟩
    by_cases h2 : hasChar 'r' ops = true
    · refine process 'r' (fun l r => Calculator.root r l) h2 ?_ ?_
      · intro l r er h
        rw [root_err_kind r l er h]
        simp
      · intro j hj
        unfold calcStep
        rw [if_neg h1, if_pos h2, hj]
    · by_cases h3 : hasChar '^' ops = true
      · refine process '^' Calculator.power h3 ?_ ?_
        · intro l r er h
          rw [power_only_invalid l r er h]
          simp
        · intro j hj
          unfold calcStep
          rw [if_neg h1, if_neg h2, if_pos h3, hj]
      · by_cases h4 : hasChar '%' ops = true
        · refine process '%' Calculator.modulo h4 ?_ ?_
          · intro l r er h
            rcases modulo_err_kind l r er h with h | h <;> simp [h]
          · intro j hj
            unfold calcStep
            rw [if_neg h1, if_neg h2, if_neg h3, if_pos h4, hj]
        · by_cases h5 : hasChar '/' ops = true
          · refine process '/' Calculator.div h5 ?_ ?_
            · intro l r er h
              rw [div_only_dbz l r er h]
              simp
            · intro j hj
              unfold calcStep
              rw [if_neg h1, if_neg h2, if_neg h3, if_neg h4, if_pos h5, hj]
          · by_cases h6 : hasChar '*' ops = true
            · refine process '*' Calculator.mul h6 ?_ ?_
              · intro l r er h
                exact absurd h (by simp [Calculator.mul])
              · intro j hj
                unfold calcStep
                rw [if_neg h1, if_neg h2, if_neg h3, if_neg h4, if_neg h5,
                  if_pos h6, hj]
            · by_cases h7 : hasChar '-' ops = true
              · refine process '-' Calculator.sub h7 ?_ ?_
                · intro l r er h
                  exact absurd h (by simp [Calculator.sub])
                · intro j hj
                  unfold calcStep
                  rw [if_neg h1, if_neg h2, if_neg h3, if_neg h4, if_neg h5,
                    if_neg h6, if_pos h7, hj]
              · by_cases h8 : hasChar '+' ops = true
                · refine process '+' Calculator.add h8 ?_ ?_
                  · intro l r er h
                    exact absurd h (by simp [Calculator.add])
                  · intro j hj
                    unfold calcStep
                    rw [if_neg h1, if_neg h2, if_neg h3, if_neg h4, if_neg h5,
                      if_neg h6, if_neg h7, if_pos h8, hj]
                · exfalso
                  obtain ⟨d, rest, rfl⟩ : ∃ d rest, ops = d :: rest := by
                    cases ops with
                    | nil => exact absurd rfl hne
                    | cons d rest => exact ⟨d, rest, rfl⟩
                  have hd := hall d (by simp)
                  rcases opChar_cases d hd with h | h | h | h | h | h | h | h <;>
                    subst h <;>
                    simp [hasChar] at h1 h2 h3 h4 h5 h6 h7 h8

lemma calcStep_preserve (nums : List ℚ) (ops : List Char) (nums' : List ℚ)
    (ops' : List Char) (h : calcStep nums ops = .ok (nums', ops'))
    (hall : ∀ c ∈ ops, isOp c = true) (hlen : binCount ops + 1 ≤ nums.length) :
    (∀ c ∈ ops', isOp c = true) ∧ binCount ops' + 1 ≤ nums'.length ∧
      ops'.length + 1 = ops.length := by
  obtain ⟨j, c, hget, hops', hcase⟩ := calcStep_ok_shape nums ops nums' ops' h
  have hjops : j < ops.length := lt_length_of_getElem?_some hget
  have hbc := binCount_eraseIdx c ops j hget
  refine ⟨?_, ?_, ?_⟩
  · intro d hd
    exact hall d (List.mem_of_mem_eraseIdx (hops' ▸ hd))
  · rcases hcase with ⟨hc, hjlt, v, hn⟩ | ⟨hc, hjlt, v, hn⟩
    · subst hc
      rw [if_pos rfl] at hbc
      rw [hn, hops', List.length_set]
      omega
    · rw [if_neg hc] at hbc
      rw [hn, hops', List.length_eraseIdx, List.length_set, if_pos hjlt]
      omega
  · rw [hops', List.length_eraseIdx, if_pos hjops]
    omega

lemma calcReduce_no_oob :
    ∀ (fuel : ℕ) (nums : List ℚ) (ops : List Char),
      (∀ c ∈ ops, isOp c = true) → binCount ops + 1 ≤ nums.length →
      ops.length ≤ fuel → calcReduce fuel nums ops ≠ .error .OutOfBounds := by
  intro fuel
  induction fuel with
  | zero =>
    intro nums ops hall hlen hfuel
    have hops : ops = [] := List.length_eq_zero.mp (by omega)
    subst hops
    rw [calcReduce, if_pos List.isEmpty_nil]
    obtain ⟨v, hv, _⟩ := getNum_some nums 0 (by simp [binCount] at hlen; omega)
    rw [hv]
    simp
  | succ fuel ih =>
    intro nums ops hall hlen hfuel
    by_cases hne : ops = []
    · subst hne
      rw [calcReduce, if_pos List.isEmpty_nil]
      obtain ⟨v, hv, _⟩ := getNum_some nums 0 (by simp [binCount] at hlen; omega)
      rw [hv]
      simp
    · rw [calcReduce, if_neg (by simp [List.isEmpty_iff, hne])]
      rcases calcStep_result nums ops hall hne hlen with
        ⟨nums', ops', hstep⟩ | ⟨er, hstep, hner⟩
      · rw [hstep]
        obtain ⟨hall', hlen', hlength⟩ := calcStep_preserve nums ops nums' ops' hstep hall hlen
        exact ih nums' ops' hall' hlen' (by omega)
      · rw [hstep]
        simp only
        intro hc
        exact hner ((Except.error.injEq _ _).mp hc)

/-! ## Claim C10 — bounds safety: the tokenizer side -/

lemma substNum_err (seg : List Char) (er : Err) (h : substNum seg = .error er) :
    er = .ParseError := by
  unfold substNum at h
  by_cases h1 : hasSubstr ['p', 'i'] seg = true
  · rw [if_pos h1] at h
    exact absurd h (by simp)
  · rw [if_neg h1] at h
    by_cases h2 : hasChar 'e' seg = true
    · rw [if_pos h2] at h
      exact absurd h (by simp)
    · rw [if_neg h2] at h
      cases hp : parseNum seg with
      | some v =>
        rw [hp] at h
        exact absurd h (by simp)
      | none =>
        rw [hp] at h
        simp only at h
        exact ((Except.error.injEq _ _).mp h).symm

lemma binCount_append (ops : List Char) (c : Char) :
    binCount (ops ++ [c]) = binCount ops + (if c = '!' then 0 else 1) := by
  unfold binCount
  rw [List.filter_append]
  by_cases hc : c = '!'
  · simp [hc]
  · simp [hc]

lemma Pre_spec (expr : List Char) (h : Pre expr = true) :
    1 ≤ expr.length ∧ (∀ c, expr[0]? = some c → isOp c = false) ∧
    (∀ c, expr[expr.length - 1]? = some c → isOp c = true → c = '!') := by
  cases expr with
  | nil => simp [Pre] at h
  | cons c0 rest =>
    unfold Pre at h
    rw [Bool.and_eq_true] at h
    obtain ⟨h1, h2⟩ := h
    refine ⟨by simp, ?_, ?_⟩
    · intro c hc
      have hc0 : c = c0 := by simpa using hc.symm
      subst hc0
      simpa using h1
    · intro c hc hop
      rw [← List.getLast?_eq_getElem?] at hc
      rw [hc] at h2
      simp only at h2
      rw [Bool.not_eq_true', Bool.and_eq_false_iff] at h2
      rcases h2 with h2 | h2
      · exact absurd hop (by simp [h2])
      · simpa using h2

/-- The scan invariant: the pending-segment start never exceeds the
position; every recorded operator character is an operator; the number
of recorded binary operators never exceeds the number of operands;
just after a `'!'` there is one spare operand; and just after a
non-operator character the pending segment is non-empty. -/
def TokInv (expr : List Char) (i ns : ℕ) (nums : List ℚ) (ops : List Char) : Prop :=
  ns ≤ i ∧
  (∀ c ∈ ops, isOp c = true) ∧
  binCount ops ≤ nums.length ∧
  (1 ≤ i → expr[i - 1]? = some '!' → binCount ops + 1 ≤ nums.length) ∧
  (1 ≤ i → (∀ c, expr[i - 1]? = some c → isOp c = false) → ns < i)

lemma tokAux_safe (expr : List Char) (hPre : Pre expr = true) :
    ∀ (gas i ns : ℕ) (nums : List ℚ) (ops : List Char),
      gas + i = expr.length →
      TokInv expr i ns nums ops →
      tokAux expr gas i ns nums ops = .error .ParseError ∨
      ∃ nums' ops', tokAux expr gas i ns nums ops = .ok (nums', ops') ∧
        (∀ c ∈ ops', isOp c = true) ∧ binCount ops' + 1 ≤ nums'.length := by
  intro gas
  induction gas with
  | zero =>
    intro i ns nums ops hgas hinv
    obtain ⟨hns, hall, hbc, hbang, hnop⟩ := hinv
    have hieq : i = expr.length := by omega
    rw [tokAux]
    unfold tokEnd
    by_cases hlt : ns < expr.length
    · rw [if_pos hlt]
      cases hp : parseNum (expr.drop ns) with
      | none => exact Or.inl rfl
      | some v =>
        refine Or.inr ⟨nums ++ [v], ops, rfl, hall, ?_⟩
        rw [List.length_append]
        simp only [List.length_singleton]
        omega
    · rw [if_neg hlt]
      obtain ⟨hlen1, _, hlast⟩ := Pre_spec expr hPre
      have hi1 : expr.length - 1 < expr.length := by omega
      have hc : expr[expr.length - 1]? = some (expr[expr.length - 1]) :=
        List.getElem?_eq_getElem hi1
      by_cases hop : isOp (expr[expr.length - 1]) = true
      · have hcbang : expr[expr.length - 1] = '!' := hlast _ hc hop
        refine Or.inr ⟨nums, ops, rfl, hall, ?_⟩
        refine hbang (by omega) ?_
        rw [show i - 1 = expr.length - 1 by omega, hc, hcbang]
      · exfalso
        have hlt2 := hnop (by omega) (fun d hd => by
          rw [show i - 1 = expr.length - 1 by omega, hc] at hd
          have : d = expr[expr.length - 1] := by simpa using hd.symm
          rw [this]
          simpa using hop)
        omega
  | succ gas ih =>
    intro i ns nums ops hgas hinv
    obtain ⟨hns, hall, hbc, hbang, hnop⟩ := hinv
    have hi : i < expr.length := by omega
    rw [tokAux, List.getElem?_eq_getElem hi]
    simp only
    by_cases hop : isOp (expr[i]) = true
    · rw [if_pos hop]
      have hi0 : ¬ i = 0 := by
        intro h0
        have hsome : expr[0]? = some (expr[i]) := by
          subst h0
          exact List.getElem?_eq_getElem hi
        have h00 := (Pre_spec expr hPre).2.1 (expr[i]) hsome
        exact absurd (h00.symm.trans hop) (by simp)
      rw [if_neg hi0]
      have hi1 : i - 1 < expr.length := by omega
      rw [List.getElem?_eq_getElem hi1]
      simp only
      by_cases hfold : expr[i] = '-' ∧ isOp (expr[i - 1]) = true ∧ expr[i - 1] ≠ '!'
      · rw [if_pos hfold]
        apply ih (i + 1) ns nums ops (by omega)
        refine ⟨by omega, hall, hbc, ?_, ?_⟩
        · intro _ hbang'
          rw [show i + 1 - 1 = i from rfl, List.getElem?_eq_getElem hi] at hbang'
          have hce : expr[i] = '!' := by simpa using hbang'
          rw [hfold.1] at hce
          exact absurd hce (by decide)
        · intro _ hnop'
          exact absurd (hnop' (expr[i]) (List.getElem?_eq_getElem hi)) (by simp [hop])
      · rw [if_neg hfold]
        by_cases hpb : expr[i - 1] = '!'
        · rw [if_pos hpb]
          have hbang_old : binCount ops + 1 ≤ nums.length :=
            hbang (by omega) (by rw [List.getElem?_eq_getElem hi1, hpb])
          apply ih (i + 1) (i + 1) nums (ops ++ [expr[i]]) (by omega)
          refine ⟨by omega, ?_, ?_, ?_, ?_⟩
          · intro d hd
            rcases List.mem_append.mp hd with h | h
            · exact hall d h
            · rw [List.mem_singleton.mp h]
              exact hop
          · rw [binCount_append]
            by_cases hce : expr[i] = '!'
            · rw [if_pos hce]
              omega
            · rw [if_neg hce]
              omega
          · intro _ hbang'
            rw [show i + 1 - 1 = i from rfl, List.getElem?_eq_getElem hi] at hbang'
            have hce : expr[i] = '!' := by simpa using hbang'
            rw [binCount_append, if_pos hce]
            omega
          · intro _ hnop'
            exact absurd (hnop' (expr[i]) (List.getElem?_eq_getElem hi)) (by simp [hop])
        · rw [if_neg hpb]
          cases hsub : substNum ((expr.drop ns).take (i - ns)) with
          | error er =>
            have her : er = .ParseError := substNum_err _ er hsub
            subst her
            exact Or.inl rfl
          | ok v =>
            apply ih (i + 1) (i + 1) (nums ++ [v]) (ops ++ [expr[i]]) (by omega)
            refine ⟨by omega, ?_, ?_, ?_, ?_⟩
            · intro d hd
              rcases List.mem_append.mp hd with h | h
              · exact hall d h
              · rw [List.mem_singleton.mp h]
                exact hop
            · rw [binCount_append, List.length_append]
              simp only [List.length_singleton]
              by_cases hce : expr[i] = '!'
              · rw [if_pos hce]
                omega
              · rw [if_neg hce]
                omega
            · intro _ hbang'
              rw [show i + 1 - 1 = i from rfl, List.getElem?_eq_getElem hi] at hbang'
              have hce : expr[i] = '!' := by simpa using hbang'
              rw [binCount_append, if_pos hce, List.length_append]
              simp only [List.length_singleton]
              omega
            · intro _ hnop'
              exact absurd (hnop' (expr[i]) (List.getElem?_eq_getElem hi)) (by simp [hop])
    · rw [if_neg hop]
      apply ih (i + 1) ns nums ops (by omega)
      refine ⟨by omega, hall, hbc, ?_, ?_⟩
      · intro _ hbang'
        rw [show i + 1 - 1 = i from rfl, List.getElem?_eq_getElem hi] at hbang'
        have hce : expr[i] = '!' := by simpa using hbang'
        rw [hce] at hop
        exact absurd (by decide : isOp '!' = true) hop
      · intro _ _
        omega

/-- C10: under the well-formedness precondition — non-empty input, not
beginning with an operator character, not ending with a binary
operator — every container access the evaluator performs (the
tokenizer's look-back `expr[i-1]`, the right-operand reads
`nums[op_index+1]`, and the final `nums[0]`) is in bounds: the
embedded evaluator never returns the out-of-bounds marker.  For inputs
violating the precondition an access is out of bounds: the empty
string (final `nums[0]` on an empty operand list), `"-5"` (look-back
`expr[-1]` at position 0), and `"3+"` (right-operand read past the end
of the operand list). -/
theorem c10_theorem :
    (∀ expr : List Char, Pre expr = true → calculate expr ≠ .error .OutOfBounds) ∧
    calculate [] = .error .OutOfBounds ∧
    calculateStr "-5" = .error .OutOfBounds ∧
    calculateStr "3+" = .error .OutOfBounds := by
  refine ⟨?_, ?_, ?_, ?_⟩
  · intro expr hPre
    unfold calculate tokenize
    rcases tokAux_safe expr hPre expr.length 0 0 [] [] (by omega)
        ⟨le_refl 0, by simp, by simp [binCount],
          fun h _ => absurd h (by omega), fun h _ => absurd h (by omega)⟩ with
      h | ⟨nums, ops, h, hall, hlen⟩
    · rw [h]
      simp
    · rw [h]
      simp only
      exact calcReduce_no_oob ops.length nums ops hall hlen (le_refl _)
  · simp [calculate, tokenize, tokAux, tokEnd, calcReduce, getNum]
  · simp [calculateStr, calculate, tokenize, tokAux, tokEnd, isOp, opChars]
  · have htok : tokenize "3+".data = .ok ([3], ['+']) := by
      simp [tokenize, tokAux, tokEnd, substNum, parseNum, parseNumCore, takeDigits,
        digitsVal, isDigitCh, isOp, opChars, hasSubstr, headMatches, hasChar]
    rw [calculateStr, calculate, htok]
    simp [calcReduce, calcStep, findLast, findFirst, getNum, binApply, hasChar]

/-- C10, witness: the safety theorem applied to the well-formed
expression `"3+5*2"`. -/
theorem c10_witness :
    Pre "3+5*2".data = true ∧ calculate "3+5*2".data ≠ .error .OutOfBounds :=
  ⟨by decide, c10_theorem.1 "3+5*2".data (by decide)⟩

end IVS
